import Mathlib

/-!
Shallow embedding of `pydrobert/torch/estimators.py` (gradient estimators for
discrete random variables: noise injection, discretization, REINFORCE, RELAX,
and the REBAR control variate).

Tensors are modelled as `List (List ℝ)`: an outer list of "rows", a row being
a slice along the last (event) dimension.  Elementwise operations act on every
entry; "categorical" operations act rowwise on the last dimension.  Uniform
noise draws (`torch.rand_like` passed through `clamp_probs`) are explicit
arguments constrained to lie strictly between 0 and 1.  The autograd flag of a
tensor (`requires_grad`) is carried explicitly where the code manipulates it.
Gradients produced by `torch.autograd.grad` of the closed-form distribution
log-probabilities are embedded by their closed forms; the gradient of an
arbitrary control variate is an oracle parameter, as the differentiation
engine is an external collaborator of the library.
-/

namespace Estimators

/-- Synonym spellings accepted for the Bernoulli family (`BERNOULLI_SYNONYMS`). -/
def BERNOULLI_SYNONYMS : List String := ["bern", "Bern", "bernoulli", "Bernoulli"]

/-- Synonym spellings accepted for the Categorical family (`CATEGORICAL_SYNONYMS`). -/
def CATEGORICAL_SYNONYMS : List String := ["cat", "Cat", "categorical", "Categorical"]

/-- Synonym spellings accepted for the OneHotCategorical family (`ONEHOT_SYNONYMS`). -/
def ONEHOT_SYNONYMS : List String := ["onehot", "OneHotCategorical"]

/-- A tensor: a batch of rows, each row a slice along the last dimension. -/
abbrev Tensor := List (List ℝ)

/-- A tensor together with its `requires_grad` autograd flag. -/
structure TT where
  data : Tensor
  requiresGrad : Bool

/-- A family-shaped tensor: `full` is shaped like `logits`; `red` has the last
dimension reduced away (one value per row, e.g. `fb` for the categorical
families); `idx` is an index-valued tensor (a categorical sample, one index
per row, as produced by `argmax` and consumed after `.long()`). -/
inductive FT
  | full : Tensor → FT
  | red : List ℝ → FT
  | idx : List ℕ → FT

/-- A family-shaped tensor with its `requires_grad` flag. -/
structure FTT where
  data : FT
  requiresGrad : Bool

/-- Two tensors have the same shape when they have the same number of rows and
corresponding rows have the same length. -/
def sameShape (a b : Tensor) : Prop := a.map List.length = b.map List.length

/-- Entry of a tensor at row `i`, column `j` (defaulting to `0` out of range). -/
def ent (t : Tensor) (i j : ℕ) : ℝ := (t.getD i []).getD j 0

/-- All entries of a tensor lie strictly between 0 and 1 (the output property
of `torch.distributions.utils.clamp_probs` applied to uniform noise). -/
def clamped (u : Tensor) : Prop := ∀ row ∈ u, ∀ x ∈ row, 0 < x ∧ x < 1

/-- A row is one-hot at position `k`: entry `k` is `1`, every other entry `0`. -/
def oneHotAt (row : List ℝ) (k : ℕ) : Prop :=
  k < row.length ∧ row.getD k 0 = 1 ∧ ∀ j < row.length, j ≠ k → row.getD j 0 = 0

/-- Three-way `zipWith`, used for elementwise combination of three tensors and
for rowwise combination of logits, samples and noise. -/
def zipWith3 (f : α → β → γ → δ) : List α → List β → List γ → List δ
  | a :: as, b :: bs, c :: cs => f a b c :: zipWith3 f as bs cs
  | _, _, _ => []

noncomputable section

/-- Logistic sigmoid, `torch.sigmoid`. -/
def sigmoid (x : ℝ) : ℝ := 1 / (1 + Real.exp (-x))

/-- Natural log of `1 + x`, `torch.log1p`. -/
def log1p (x : ℝ) : ℝ := Real.log (1 + x)

/-- Sum of exponentials of a row (the softmax normalizer). -/
def expSum (l : List ℝ) : ℝ := (l.map Real.exp).sum

/-- Softmax of a row along the last dimension, `torch.softmax(·, -1)`. -/
def softmaxRow (l : List ℝ) : List ℝ := l.map (fun x => Real.exp x / expSum l)

/-- Log-softmax of a row, `torch.nn.functional.log_softmax(·, dim=-1)`. -/
def logSoftmaxRow (l : List ℝ) : List ℝ := l.map (fun x => x - Real.log (expSum l))

/-- Elementwise combination of two tensors of the same shape. -/
def map2 (f : ℝ → ℝ → ℝ) (a b : Tensor) : Tensor := List.zipWith (List.zipWith f) a b

/-- Index of the first maximal element of a row, `torch.argmax(·, dim=-1)`
(PyTorch returns the index of the first occurrence of the maximum). -/
def argmaxRow : List ℝ → ℕ
  | [] => 0
  | [_] => 0
  | x :: y :: r =>
    if x < (y :: r).getD (argmaxRow (y :: r)) 0 then argmaxRow (y :: r) + 1 else 0

end

/-! ### Embedded library functions -/

noncomputable section

/-- One-hot row written by `torch.zeros_like(z).scatter_(-1, k, 1.)`: length-`n`
row with a `1` at position `k` and `0` elsewhere. -/
def scatterOneHot (n k : ℕ) : List ℝ := (List.range n).map (fun d => if d = k then 1 else 0)

/-- `to_z(logits, dist, warn)`: injects the clamped uniform noise `u` (drawn by
`torch.rand_like(logits)` through `clamp_probs`, here an explicit argument)
into `logits` and marks the result as requiring grad.  The `warn` flag only
controls a non-fatal `warnings.warn` side effect and is not modelled further. -/
def to_z (logits : TT) (u : Tensor) (dist : String) : Except String TT :=
  if dist ∈ BERNOULLI_SYNONYMS then
    .ok ⟨map2 (fun L uv => L + Real.log uv - log1p (-uv)) logits.data u, true⟩
  else if dist ∈ CATEGORICAL_SYNONYMS ∨ dist ∈ ONEHOT_SYNONYMS then
    .ok ⟨List.zipWith
      (fun lrow urow =>
        List.zipWith (fun lt uv => lt - Real.log (-Real.log uv)) (logSoftmaxRow lrow) urow)
      logits.data u, true⟩
  else .error ("Unknown distribution " ++ dist)

/-- `to_b(z, dist)`: deterministic discretization of `z`.  Bernoulli:
`z.gt(0.).to(z)`; Categorical: `z.argmax(dim=-1).to(z)` (index-valued, kept as
naturals here instead of their float casts); OneHotCategorical: one-hot of the
arg-max via `zeros_like(z).scatter_`.  The results carry no grad tracking. -/
def to_b (z : TT) (dist : String) : Except String FTT :=
  if dist ∈ BERNOULLI_SYNONYMS then
    .ok ⟨.full (z.data.map (List.map (fun x => if 0 < x then (1 : ℝ) else 0))), false⟩
  else if dist ∈ CATEGORICAL_SYNONYMS then
    .ok ⟨.idx (z.data.map argmaxRow), false⟩
  else if dist ∈ ONEHOT_SYNONYMS then
    .ok ⟨.full (z.data.map (fun row => scatterOneHot row.length (argmaxRow row))), false⟩
  else .error ("Unknown distribution " ++ dist)

/-- `to_fb(f, b)`: simply call `f(b)`. -/
def to_fb (f : FT → List ℝ) (b : FT) : List ℝ := f b

/-- Gradient of `torch.distributions.Bernoulli(logits=logits).log_prob(b)`
w.r.t. `logits` under an all-ones seed (external log-prob primitive composed
with the external autograd engine): elementwise `b - sigmoid(logits)`. -/
def dlogBern (logits b : Tensor) : Tensor :=
  map2 (fun L bv => bv - sigmoid L) logits b

/-- Rowwise gradient of `Categorical(logits=row).log_prob(k)` w.r.t. the row
under a ones seed: `1[j = k] - softmax(row)_j`. -/
def dlogCatRow (row : List ℝ) (k : ℕ) : List ℝ :=
  List.zipWith (fun oh θv => oh - θv) (scatterOneHot row.length k) (softmaxRow row)

/-- Gradient of `Categorical(logits=logits).log_prob(b)` w.r.t. `logits` under
a ones seed, `b` the per-row index list. -/
def dlogCat (logits : Tensor) (ks : List ℕ) : Tensor :=
  List.zipWith dlogCatRow logits ks

/-- Gradient of `OneHotCategorical(logits=logits).log_prob(b)` w.r.t. `logits`
under a ones seed.  `OneHotCategorical.log_prob` routes through the index
`value.max(-1)[1]`, i.e. the arg-max of each row of `b`. -/
def dlogOneHot (logits b : Tensor) : Tensor :=
  List.zipWith (fun lrow brow => dlogCatRow lrow (argmaxRow brow)) logits b

/-- `reinforce(fb, b, logits, dist)`: detaches `fb` and `b`, computes the
closed-form log-probability gradient, unsqueezes `fb` on the last axis for the
categorical families (`fb.unsqueeze(-1)` broadcast against the per-category
gradient), and returns `fb * dlog_pb`.  `torch.autograd.grad` is called
without `create_graph`, so the result does not require grad. -/
def reinforce (fb b : FTT) (logits : TT) (dist : String) : Except String TT :=
  if dist ∈ BERNOULLI_SYNONYMS then
    match fb.data, b.data with
    | .full fbt, .full bt => .ok ⟨map2 (· * ·) fbt (dlogBern logits.data bt), false⟩
    | _, _ => .error "shape mismatch"
  else if dist ∈ CATEGORICAL_SYNONYMS then
    match fb.data, b.data with
    | .red fbs, .idx ks =>
      .ok ⟨List.zipWith (fun fv grow => grow.map (fun g => fv * g)) fbs
        (dlogCat logits.data ks), false⟩
    | _, _ => .error "shape mismatch"
  else if dist ∈ ONEHOT_SYNONYMS then
    match fb.data, b.data with
    | .red fbs, .full bt =>
      .ok ⟨List.zipWith (fun fv grow => grow.map (fun g => fv * g)) fbs
        (dlogOneHot logits.data bt), false⟩
    | _, _ => .error "shape mismatch"
  else .error ("Unknown distribution " ++ dist)

/-- `v_prime` of the Bernoulli branch of `_to_z_tilde`:
`b * (v * (1 - om_theta) + om_theta) + (1 - b) * v * om_theta` with
`om_theta = torch.sigmoid(-logits)`. -/
def vPrime (L bv v : ℝ) : ℝ :=
  bv * (v * (1 - sigmoid (-L)) + sigmoid (-L)) + (1 - bv) * v * sigmoid (-L)

/-- Bernoulli entry of `z_tilde`: `logits + log(v_prime) - log1p(-v_prime)`. -/
def zTildeBernEnt (L bv v : ℝ) : ℝ :=
  L + Real.log (vPrime L bv v) - log1p (-(vPrime L bv v))

/-- Worker for the categorical branch of `_to_z_tilde`: walks the noise row
and the softmax row in parallel, carrying the running position `d`; position
`k` (the observed index, selected by the scatter mask) gets
`-log(-log v)`, every other position gets `-log(-log v / θ - log v_k)`
(`log v_k` being the gathered noise log at the observed index). -/
def catGo (logvk : ℝ) (k : ℕ) : ℕ → List ℝ → List ℝ → List ℝ
  | _, [], _ => []
  | _, _ :: _, [] => []
  | d, v :: vs, t :: ts =>
    (if d = k then -Real.log (-Real.log v)
     else -Real.log (-Real.log v / t - logvk)) :: catGo logvk k (d + 1) vs ts

/-- Categorical row of `z_tilde` for observed index `k`. -/
def zTildeCatRow (lrow vrow : List ℝ) (k : ℕ) : List ℝ :=
  catGo (Real.log (vrow.getD k 0)) k 0 vrow (softmaxRow lrow)

/-- Worker for the one-hot branch of `_to_z_tilde`: the mask is `b.byte()`,
i.e. an entry is selected when the truncation of `b` to an integer is
nonzero; the gathered noise log uses `b.argmax(-1)`. -/
def oneHotGo (logvk : ℝ) : List ℝ → List ℝ → List ℝ → List ℝ
  | bv :: bs, v :: vs, t :: ts =>
    (if ⌊bv⌋ ≠ (0 : ℤ) then -Real.log (-Real.log v)
     else -Real.log (-Real.log v / t - logvk)) :: oneHotGo logvk bs vs ts
  | _, _, _ => []

/-- One-hot row of `z_tilde` for observed one-hot row `brow`. -/
def zTildeOneHotRow (lrow brow vrow : List ℝ) : List ℝ :=
  oneHotGo (Real.log (vrow.getD (argmaxRow brow) 0)) brow vrow (softmaxRow lrow)

/-- `_to_z_tilde(logits, b, dist)`: conditional reparameterization.  The fresh
clamped uniform noise `v` (`clamp_probs(torch.rand_like(logits))`) is an
explicit argument. -/
def _to_z_tilde (logits : Tensor) (b : FT) (v : Tensor) (dist : String) :
    Except String Tensor :=
  if dist ∈ BERNOULLI_SYNONYMS then
    match b with
    | .full bt => .ok (zipWith3 (zipWith3 zTildeBernEnt) logits bt v)
    | _ => .error "shape mismatch"
  else if dist ∈ CATEGORICAL_SYNONYMS then
    match b with
    | .idx ks => .ok (zipWith3 (fun lrow k vrow => zTildeCatRow lrow vrow k) logits ks v)
    | _ => .error "shape mismatch"
  else if dist ∈ ONEHOT_SYNONYMS then
    match b with
    | .full bt => .ok (zipWith3 zTildeOneHotRow logits bt v)
    | _ => .error "shape mismatch"
  else .error ("Unknown distribution " ++ dist)

end

/-! ### RELAX and REBAR -/

/-- Result of `relax`: either the single gradient-estimate tensor or the tuple
`(diff, dlog_pb, dc_z, dc_z_tilde)` of its four terms. -/
inductive RelaxOut
  | single : Tensor → RelaxOut
  | comps : Tensor → Tensor → Tensor → Tensor → RelaxOut

noncomputable section

/-- Torch subtraction `fb - c_z_tilde` on family-shaped tensors of matching
shape (a dtype/shape mismatch would raise inside torch). -/
def ftSub : FT → FT → Except String FT
  | .full a, .full c => .ok (.full (map2 (· - ·) a c))
  | .red a, .red c => .ok (.red (List.zipWith (· - ·) a c))
  | _, _ => .error "shape mismatch"

/-- Torch broadcast multiplication of two rows along the last dimension: a
singleton row is broadcast against the other row, otherwise elementwise. -/
def bmulRow (a b : List ℝ) : List ℝ :=
  if a.length = 1 then b.map (fun y => a.getD 0 0 * y)
  else if b.length = 1 then a.map (fun x => x * b.getD 0 0)
  else List.zipWith (· * ·) a b

/-- Torch broadcast multiplication of two tensors, rowwise. -/
def bmulT (a b : Tensor) : Tensor := List.zipWith bmulRow a b

/-- The combination `diff * dlog_pb + dc_z - dc_z_tilde` returned by `relax`
when `components` is false. -/
def combineG (diff dlog_pb dc_z dc_z_tilde : Tensor) : Tensor :=
  map2 (· - ·) (map2 (· + ·) (bmulT diff dlog_pb) dc_z) dc_z_tilde

/-- `relax(fb, b, logits, z, c, dist, components)`.  `fb` and `b` are detached
first (modelled by taking raw family-shaped data); `z_tilde` is drawn by
`_to_z_tilde` (which raises on an unknown tag before `c` is ever invoked);
the control variate `capp` is applied to `z` and `z_tilde`;
`diff = fb - c(z_tilde)`; the family dispatch computes the closed-form
log-probability gradient `dlog_pb` and unsqueezes `diff` for the categorical
families; `agrad` is the external autograd engine's answer for
`torch.autograd.grad([·], [logits], create_graph=True, retain_graph=True)`
applied to `c(z)` and `c(z_tilde)` (in the source these two gradients are
taken after the dispatch; they do not depend on it). -/
def relax (fb b : FT) (logits z v : Tensor) (capp : Tensor → FT)
    (agrad : FT → Tensor) (dist : String) (components : Bool) :
    Except String RelaxOut := do
  let z_tilde ← _to_z_tilde logits b v dist
  let c_z := capp z
  let c_z_tilde := capp z_tilde
  let diff ← ftSub fb c_z_tilde
  let dc_z := agrad c_z
  let dc_z_tilde := agrad c_z_tilde
  if dist ∈ BERNOULLI_SYNONYMS then
    match diff with
    | .full dt =>
      match b with
      | .full bt =>
        let dlog_pb := dlogBern logits bt
        pure (if components then .comps dt dlog_pb dc_z dc_z_tilde
              else .single (combineG dt dlog_pb dc_z dc_z_tilde))
      | _ => .error "shape mismatch"
    | _ => .error "shape mismatch"
  else if dist ∈ CATEGORICAL_SYNONYMS then
    match diff with
    | .red ds =>
      match b with
      | .idx ks =>
        let dlog_pb := dlogCat logits ks
        let dt := ds.map (fun x => [x])
        pure (if components then .comps dt dlog_pb dc_z dc_z_tilde
              else .single (combineG dt dlog_pb dc_z dc_z_tilde))
      | _ => .error "shape mismatch"
    | _ => .error "shape mismatch"
  else if dist ∈ ONEHOT_SYNONYMS then
    match diff with
    | .red ds =>
      match b with
      | .full bt =>
        let dlog_pb := dlogOneHot logits bt
        let dt := ds.map (fun x => [x])
        pure (if components then .comps dt dlog_pb dc_z dc_z_tilde
              else .single (combineG dt dlog_pb dc_z dc_z_tilde))
      | _ => .error "shape mismatch"
    | _ => .error "shape mismatch"
  else .error ("Unknown distribution " ++ dist)

/-- State of `REBARControlVariate`: the wrapped objective `f`, the stored tag,
the `_bernoulli` dispatch flag set at construction, the construction-time
`start_temp` and `start_eta`, and the two trainable parameters `log_temp`
and `eta`. -/
structure REBARControlVariate where
  f : Tensor → Tensor
  dist : String
  bernoulliFlag : Bool
  start_temp : ℝ
  start_eta : ℝ
  log_temp : ℝ
  eta : ℝ

/-- `reset_parameters`: `log_temp.data.fill_(start_temp).log_()` and
`eta.data.fill_(start_eta)`. -/
def REBARControlVariate.reset_parameters (r : REBARControlVariate) :
    REBARControlVariate :=
  { r with log_temp := Real.log r.start_temp, eta := r.start_eta }

/-- `REBARControlVariate.__init__(f, dist, start_temp, start_eta, warn)`:
rejects non-positive `start_temp`, dispatches on the tag to set `_bernoulli`
(the `warn` flag only triggers a non-fatal warning for the Categorical tag and
is not modelled further), allocates the two parameters and fills them via
`reset_parameters`. -/
def REBARControlVariate.init (f : Tensor → Tensor) (dist : String)
    (start_temp start_eta : ℝ) : Except String REBARControlVariate :=
  if start_temp ≤ 0 then .error "start_temp must be positive"
  else if dist ∈ BERNOULLI_SYNONYMS then
    .ok (REBARControlVariate.reset_parameters ⟨f, dist, true, start_temp, start_eta, 0, 0⟩)
  else if dist ∈ ONEHOT_SYNONYMS then
    .ok (REBARControlVariate.reset_parameters ⟨f, dist, false, start_temp, start_eta, 0, 0⟩)
  else if dist ∈ CATEGORICAL_SYNONYMS then
    .ok (REBARControlVariate.reset_parameters ⟨f, dist, false, start_temp, start_eta, 0, 0⟩)
  else .error ("Unknown distribution " ++ dist)

/-- `REBARControlVariate.forward(z)`: rescale by the effective temperature
`exp(log_temp)`, relax with sigmoid (Bernoulli) or softmax along the last
dimension (categorical families), apply `f`, and scale by `eta`. -/
def REBARControlVariate.forward (r : REBARControlVariate) (z : Tensor) : Tensor :=
  let z_temp := z.map (List.map (fun x => x / Real.exp r.log_temp))
  if r.bernoulliFlag then
    (r.f (z_temp.map (List.map sigmoid))).map (List.map (fun y => r.eta * y))
  else
    (r.f (z_temp.map softmaxRow)).map (List.map (fun y => r.eta * y))

end

/-! ### Basic list lemmas -/

theorem getD_eq_getElem_of_lt {α} (l : List α) (d : α) {i : ℕ} (h : i < l.length) :
    l.getD i d = l[i] := by
  simp [List.getD_eq_getElem?_getD, List.getElem?_eq_getElem h]

theorem getD_map_of_lt {α β} (f : α → β) (l : List α) (d : α) (e : β) {i : ℕ}
    (h : i < l.length) : (l.map f).getD i e = f (l.getD i d) := by
  rw [getD_eq_getElem_of_lt _ _ (by simpa using h), getD_eq_getElem_of_lt _ _ h]
  simp

theorem getD_zipWith_of_lt {α β γ} (f : α → β → γ) (a : List α) (b : List β)
    (da : α) (db : β) (dc : γ) {i : ℕ} (ha : i < a.length) (hb : i < b.length) :
    (List.zipWith f a b).getD i dc = f (a.getD i da) (b.getD i db) := by
  have hlen : i < (List.zipWith f a b).length := by
    simp [List.length_zipWith]; omega
  rw [getD_eq_getElem_of_lt _ _ hlen, getD_eq_getElem_of_lt _ _ ha,
    getD_eq_getElem_of_lt _ _ hb]
  simp

theorem getD_eq_default_of_ge {α} (l : List α) (d : α) {i : ℕ} (h : l.length ≤ i) :
    l.getD i d = d := by
  simp [List.getD_eq_getElem?_getD, List.getElem?_eq_none h]

/-! ### Shape lemmas -/

theorem sameShape_length {a b : Tensor} (h : sameShape a b) : a.length = b.length := by
  have := congrArg List.length h
  simpa using this

theorem sameShape_row {a b : Tensor} (h : sameShape a b) (i : ℕ) :
    (a.getD i []).length = (b.getD i []).length := by
  rcases lt_or_ge i a.length with hi | hi
  · have hib : i < b.length := sameShape_length h ▸ hi
    have h1 := getD_map_of_lt List.length a [] 0 hi
    have h2 := getD_map_of_lt List.length b [] 0 hib
    rw [← h1, ← h2, h]
  · have hib : b.length ≤ i := sameShape_length h ▸ hi
    rw [getD_eq_default_of_ge _ _ hi, getD_eq_default_of_ge _ _ hib]

theorem sameShape_refl (a : Tensor) : sameShape a a := rfl

theorem sameShape_symm {a b : Tensor} (h : sameShape a b) : sameShape b a := h.symm

theorem sameShape_trans {a b c : Tensor} (h1 : sameShape a b) (h2 : sameShape b c) :
    sameShape a c := h1.trans h2

/-- A rowwise `zipWith` whose row operation preserves the length of the first
row maps same-shaped tensors to a tensor of that shape. -/
theorem zipWith_rows_shape (g : List ℝ → List ℝ → List ℝ)
    (hg : ∀ x y, y.length = x.length → (g x y).length = x.length) :
    ∀ a b : Tensor, sameShape b a → sameShape (List.zipWith g a b) a
  | [], b, _ => by simp [sameShape]
  | x :: xs, [], h => by simp [sameShape] at h
  | x :: xs, y :: ys, h => by
    simp only [sameShape, List.map_cons, List.cons.injEq] at h
    simp only [List.zipWith_cons_cons, sameShape, List.map_cons, List.cons.injEq]
    exact ⟨hg x y h.1, zipWith_rows_shape g hg xs ys h.2⟩

theorem map2_shape (f : ℝ → ℝ → ℝ) {a b : Tensor} (h : sameShape b a) :
    sameShape (map2 f a b) a :=
  zipWith_rows_shape (List.zipWith f)
    (fun x y hxy => by rw [List.length_zipWith, hxy, min_self]) a b h

theorem ent_map2 (f : ℝ → ℝ → ℝ) {a b : Tensor} {i j : ℕ} (hia : i < a.length)
    (hib : i < b.length) (hja : j < (a.getD i []).length)
    (hjb : j < (b.getD i []).length) :
    ent (map2 f a b) i j = f (ent a i j) (ent b i j) := by
  unfold ent map2
  rw [getD_zipWith_of_lt (List.zipWith f) a b [] [] [] hia hib,
    getD_zipWith_of_lt f _ _ 0 0 0 hja hjb]

theorem zipWith3_length (f : α → β → γ → δ) :
    ∀ (a : List α) (b : List β) (c : List γ),
      (zipWith3 f a b c).length = min a.length (min b.length c.length)
  | [], _, _ => by cases ‹List β› <;> cases ‹List γ› <;> simp [zipWith3]
  | _ :: _, [], _ => by simp [zipWith3]
  | _ :: _, _ :: _, [] => by simp [zipWith3]
  | a :: as, b :: bs, c :: cs => by
    simp [zipWith3, zipWith3_length f as bs cs]; omega

theorem getD_zipWith3 {δ : Type _} (f : α → β → γ → δ) (da : α) (db : β) (dc : γ)
    (dd : δ) :
    ∀ (a : List α) (b : List β) (c : List γ) (i : ℕ),
      i < a.length → i < b.length → i < c.length →
      (zipWith3 f a b c).getD i dd = f (a.getD i da) (b.getD i db) (c.getD i dc)
  | a :: as, b :: bs, c :: cs, 0, _, _, _ => by simp [zipWith3]
  | a :: as, b :: bs, c :: cs, i + 1, ha, hb, hc => by
    simpa [zipWith3] using
      getD_zipWith3 f da db dc dd as bs cs i (by simpa using ha) (by simpa using hb)
        (by simpa using hc)

/-! ### argmax lemmas -/

theorem argmaxRow_spec : ∀ l : List ℝ, l ≠ [] →
    argmaxRow l < l.length ∧ ∀ i < l.length, l.getD i 0 ≤ l.getD (argmaxRow l) 0
  | [], h => absurd rfl h
  | [x], _ => by
    refine ⟨by simp [argmaxRow], ?_⟩
    intro i hi
    match i with
    | 0 => simp [argmaxRow]
    | i + 1 => simp at hi
  | x :: y :: r, _ => by
    obtain ⟨ih1, ih2⟩ := argmaxRow_spec (y :: r) (by simp)
    by_cases hx : x < (y :: r).getD (argmaxRow (y :: r)) 0
    · have harg : argmaxRow (x :: y :: r) = argmaxRow (y :: r) + 1 := by
        rw [argmaxRow, if_pos hx]
      refine ⟨by rw [harg]; simpa using ih1, ?_⟩
      intro i hi
      rw [harg]
      match i with
      | 0 => simpa using le_of_lt hx
      | i + 1 =>
        have := ih2 i (by simpa using hi)
        simpa using this
    · have harg : argmaxRow (x :: y :: r) = 0 := by
        rw [argmaxRow, if_neg hx]
      refine ⟨by simp [harg], ?_⟩
      intro i hi
      rw [harg]
      match i with
      | 0 => simp
      | i + 1 =>
        have h1 := ih2 i (by simpa using hi)
        have h2 := not_lt.mp hx
        simpa using le_trans h1 h2

theorem argmaxRow_lt_length {l : List ℝ} (h : l ≠ []) : argmaxRow l < l.length :=
  (argmaxRow_spec l h).1

theorem getD_le_argmaxRow {l : List ℝ} (h : l ≠ []) {i : ℕ} (hi : i < l.length) :
    l.getD i 0 ≤ l.getD (argmaxRow l) 0 :=
  (argmaxRow_spec l h).2 i hi

/-- If the entry at `k` strictly dominates every other entry, the arg-max is `k`. -/
theorem argmaxRow_eq_of_strict {l : List ℝ} {k : ℕ} (hk : k < l.length)
    (hdom : ∀ j < l.length, j ≠ k → l.getD j 0 < l.getD k 0) : argmaxRow l = k := by
  have hne : l ≠ [] := by
    intro h
    rw [h] at hk
    exact absurd hk (by simp)
  by_contra hne'
  have h1 := hdom (argmaxRow l) (argmaxRow_lt_length hne) hne'
  have h2 := getD_le_argmaxRow hne hk
  exact absurd (lt_of_le_of_lt h2 h1) (lt_irrefl _)

/-! ### Tag lemmas -/

theorem cat_not_bern {d : String} (h : d ∈ CATEGORICAL_SYNONYMS) :
    d ∉ BERNOULLI_SYNONYMS := by
  simp only [CATEGORICAL_SYNONYMS, List.mem_cons, List.not_mem_nil, or_false] at h
  rcases h with rfl | rfl | rfl | rfl <;> decide

theorem onehot_not_bern {d : String} (h : d ∈ ONEHOT_SYNONYMS) :
    d ∉ BERNOULLI_SYNONYMS := by
  simp only [ONEHOT_SYNONYMS, List.mem_cons, List.not_mem_nil, or_false] at h
  rcases h with rfl | rfl <;> decide

theorem onehot_not_cat {d : String} (h : d ∈ ONEHOT_SYNONYMS) :
    d ∉ CATEGORICAL_SYNONYMS := by
  simp only [ONEHOT_SYNONYMS, List.mem_cons, List.not_mem_nil, or_false] at h
  rcases h with rfl | rfl <;> decide

/-! ### Unknown-tag behavior (shared helpers) -/

theorem to_z_tilde_unknown {dist : String} (h1 : dist ∉ BERNOULLI_SYNONYMS)
    (h2 : dist ∉ CATEGORICAL_SYNONYMS) (h3 : dist ∉ ONEHOT_SYNONYMS)
    (logits : Tensor) (b : FT) (v : Tensor) :
    _to_z_tilde logits b v dist = .error ("Unknown distribution " ++ dist) := by
  simp [_to_z_tilde, h1, h2, h3]

theorem relax_unknown {dist : String} (h1 : dist ∉ BERNOULLI_SYNONYMS)
    (h2 : dist ∉ CATEGORICAL_SYNONYMS) (h3 : dist ∉ ONEHOT_SYNONYMS)
    (fb b : FT) (logits z v : Tensor) (capp : Tensor → FT) (agrad : FT → Tensor)
    (components : Bool) :
    relax fb b logits z v capp agrad dist components
      = .error ("Unknown distribution " ++ dist) := by
  rw [relax, to_z_tilde_unknown h1 h2 h3]
  rfl

/-! ### Claim C5: invalid tag rejected by every operation -/

/-- C5: for every tag string outside the three recognized families and their
synonym spellings, each of `to_z`, `to_b`, `reinforce` and `relax` fails with
an invalid-argument error naming the tag, for all otherwise-valid inputs. -/
theorem unknown_tag_rejected_everywhere (dist : String)
    (h1 : dist ∉ BERNOULLI_SYNONYMS) (h2 : dist ∉ CATEGORICAL_SYNONYMS)
    (h3 : dist ∉ ONEHOT_SYNONYMS) :
    (∀ (logits : TT) (u : Tensor),
      to_z logits u dist = .error ("Unknown distribution " ++ dist)) ∧
    (∀ z : TT, to_b z dist = .error ("Unknown distribution " ++ dist)) ∧
    (∀ (fb b : FTT) (logits : TT),
      reinforce fb b logits dist = .error ("Unknown distribution " ++ dist)) ∧
    (∀ (fb b : FT) (logits z v : Tensor) (capp : Tensor → FT) (agrad : FT → Tensor)
      (components : Bool),
      relax fb b logits z v capp agrad dist components
        = .error ("Unknown distribution " ++ dist)) := by
  refine ⟨?_, ?_, ?_, ?_⟩
  · intro logits u
    simp [to_z, h1, h2, h3]
  · intro z
    simp [to_b, h1, h2, h3]
  · intro fb b logits
    simp [reinforce, h1, h2, h3]
  · intro fb b logits z v capp agrad components
    exact relax_unknown h1 h2 h3 fb b logits z v capp agrad components

/-- Witness for C5 at the concrete tag `"poisson"`. -/
theorem unknown_tag_rejected_everywhere_witness :
    to_z ⟨[[0]], false⟩ [[1/2]] "poisson"
        = .error ("Unknown distribution " ++ "poisson") ∧
    to_b ⟨[[0]], false⟩ "poisson" = .error ("Unknown distribution " ++ "poisson") ∧
    reinforce ⟨.full [[1]], false⟩ ⟨.full [[1]], false⟩ ⟨[[0]], false⟩ "poisson"
        = .error ("Unknown distribution " ++ "poisson") ∧
    relax (.full [[1]]) (.full [[1]]) [[0]] [[0]] [[1/2]] (fun x => .full x)
        (fun _ => [[0]]) "poisson" false
        = .error ("Unknown distribution " ++ "poisson") := by
  obtain ⟨hz, hb, hr, hx⟩ :=
    unknown_tag_rejected_everywhere "poisson" (by decide) (by decide) (by decide)
  exact ⟨hz _ _, hb _, hr _ _ _, hx _ _ _ _ _ _ _ _⟩

/-! ### Claim C10: the unknown-tag error in relax precedes the control variate -/

/-- C10: when `relax` is given an unrecognized tag, the invalid-argument error
is the one raised by conditional reparameterization (`_to_z_tilde`), and the
outcome is the same for every control variate and every gradient oracle — the
control variate is never consulted, and no component of the estimate is
produced. -/
theorem relax_unknown_tag_fails_in_reparameterization (dist : String)
    (h1 : dist ∉ BERNOULLI_SYNONYMS) (h2 : dist ∉ CATEGORICAL_SYNONYMS)
    (h3 : dist ∉ ONEHOT_SYNONYMS) (fb b : FT) (logits z v : Tensor)
    (components : Bool) :
    (∀ (capp : Tensor → FT) (agrad : FT → Tensor),
      relax fb b logits z v capp agrad dist components
        = .error ("Unknown distribution " ++ dist)) ∧
    _to_z_tilde logits b v dist = .error ("Unknown distribution " ++ dist) :=
  ⟨fun capp agrad => relax_unknown h1 h2 h3 fb b logits z v capp agrad components,
   to_z_tilde_unknown h1 h2 h3 logits b v⟩

/-- Witness for C10 at the concrete tag `"poisson"`, showing two different
control variates produce the identical error. -/
theorem relax_unknown_tag_fails_in_reparameterization_witness :
    relax (.full [[1]]) (.full [[1]]) [[0]] [[0]] [[1/2]] (fun x => .full x)
        (fun _ => [[0]]) "poisson" true
      = .error ("Unknown distribution " ++ "poisson") ∧
    relax (.full [[1]]) (.full [[1]]) [[0]] [[0]] [[1/2]] (fun _ => .red [0])
        (fun _ => [[1]]) "poisson" true
      = .error ("Unknown distribution " ++ "poisson") ∧
    _to_z_tilde [[0]] (.full [[1]]) [[1/2]] "poisson"
      = .error ("Unknown distribution " ++ "poisson") := by
  obtain ⟨hall, hzt⟩ :=
    relax_unknown_tag_fails_in_reparameterization "poisson" (by decide) (by decide)
      (by decide) (.full [[1]]) (.full [[1]]) [[0]] [[0]] [[1/2]] true
  exact ⟨hall _ _, hall _ _, hzt⟩

/-! ### REBAR control variate: construction, reset, forward -/

theorem init_ok_fields {f : Tensor → Tensor} {dist : String} {t η : ℝ}
    {r : REBARControlVariate} (h : REBARControlVariate.init f dist t η = .ok r) :
    r.f = f ∧ r.start_temp = t ∧ r.start_eta = η ∧
    r.log_temp = Real.log t ∧ r.eta = η ∧
    (r.bernoulliFlag = true ↔ dist ∈ BERNOULLI_SYNONYMS) := by
  rw [REBARControlVariate.init] at h
  split_ifs at h with h1 h2 h3 h4 <;>
    (injection h with h; subst h; simp [REBARControlVariate.reset_parameters, *])

/-- C8: constructing the control variate with non-positive `start_temp` fails
with the invalid-argument error; with a positive `start_temp` and a recognized
tag, construction succeeds and, after arbitrarily perturbing the two
parameters, `reset_parameters` restores `log_temp` to `log start_temp` and
`eta` to `start_eta`. -/
theorem rebar_init_validation_and_reset (f : Tensor → Tensor) (dist : String)
    (t η : ℝ) :
    (t ≤ 0 → REBARControlVariate.init f dist t η
        = .error "start_temp must be positive") ∧
    (0 < t →
      dist ∈ BERNOULLI_SYNONYMS ∨ dist ∈ CATEGORICAL_SYNONYMS ∨
        dist ∈ ONEHOT_SYNONYMS →
      ∃ r, REBARControlVariate.init f dist t η = .ok r ∧ ∀ lt et : ℝ,
        (REBARControlVariate.reset_parameters
            { r with log_temp := lt, eta := et }).log_temp = Real.log t ∧
        (REBARControlVariate.reset_parameters
            { r with log_temp := lt, eta := et }).eta = η) := by
  constructor
  · intro ht
    rw [REBARControlVariate.init, if_pos ht]
  · intro ht hdist
    have hok : ∃ r, REBARControlVariate.init f dist t η = .ok r := by
      rw [REBARControlVariate.init, if_neg (not_le.mpr ht)]
      rcases hdist with h | h | h
      · exact ⟨_, by rw [if_pos h]⟩
      · by_cases ho : dist ∈ ONEHOT_SYNONYMS
        · exact ⟨_, by rw [if_neg (cat_not_bern h), if_pos ho]⟩
        · exact ⟨_, by rw [if_neg (cat_not_bern h), if_neg ho, if_pos h]⟩
      · exact ⟨_, by rw [if_neg (onehot_not_bern h), if_pos h]⟩
    obtain ⟨r, hr⟩ := hok
    obtain ⟨-, hst, hse, -, -, -⟩ := init_ok_fields hr
    refine ⟨r, hr, fun lt et => ?_⟩
    simp [REBARControlVariate.reset_parameters, hst, hse]

/-- Witness for C8: `start_temp = -1` is rejected; with `start_temp = 0.1` and
`start_eta = 1`, perturbing the parameters to `5` and `7` and resetting
restores `log_temp = log 0.1` and `eta = 1`. -/
theorem rebar_init_validation_and_reset_witness :
    (REBARControlVariate.init (fun x => x) "bern" (-1) 1
        = .error "start_temp must be positive") ∧
    (∃ r, REBARControlVariate.init (fun x => x) "bern" (1 / 10) 1 = .ok r ∧
      (REBARControlVariate.reset_parameters
          { r with log_temp := 5, eta := 7 }).log_temp = Real.log (1 / 10) ∧
      (REBARControlVariate.reset_parameters
          { r with log_temp := 5, eta := 7 }).eta = 1) := by
  constructor
  · exact (rebar_init_validation_and_reset (fun x => x) "bern" (-1) 1).1 (by norm_num)
  · obtain ⟨r, hr, hreset⟩ :=
      (rebar_init_validation_and_reset (fun x => x) "bern" (1 / 10) 1).2
        (by norm_num) (Or.inl (by decide))
    exact ⟨r, hr, (hreset 5 7).1, (hreset 5 7).2⟩

/-- C7: after construction, `forward` of the control variate — for every later
state of the two trainable parameters — returns `eta * f(sigmoid(x / exp
log_temp))` under a Bernoulli tag and `eta * f(softmax(x / exp log_temp, last
dim))` under a Categorical or OneHotCategorical tag, and the effective
temperature `exp log_temp` is strictly positive for every real `log_temp`. -/
theorem rebar_forward_spec (f : Tensor → Tensor) (dist : String) (t η : ℝ)
    (r : REBARControlVariate) (h : REBARControlVariate.init f dist t η = .ok r)
    (lt et : ℝ) (x : Tensor) :
    (dist ∈ BERNOULLI_SYNONYMS →
      REBARControlVariate.forward { r with log_temp := lt, eta := et } x
        = (f ((x.map (List.map (fun xv => xv / Real.exp lt))).map
            (List.map sigmoid))).map (List.map (fun y => et * y))) ∧
    ((dist ∈ CATEGORICAL_SYNONYMS ∨ dist ∈ ONEHOT_SYNONYMS) →
      REBARControlVariate.forward { r with log_temp := lt, eta := et } x
        = (f ((x.map (List.map (fun xv => xv / Real.exp lt))).map
            softmaxRow)).map (List.map (fun y => et * y))) ∧
    0 < Real.exp lt := by
  obtain ⟨hf, -, -, -, -, hflag⟩ := init_ok_fields h
  refine ⟨fun hb => ?_, fun hc => ?_, Real.exp_pos lt⟩
  · have : r.bernoulliFlag = true := hflag.mpr hb
    rw [REBARControlVariate.forward]
    simp [this, hf]
  · have : r.bernoulliFlag = false := by
      cases hcase : r.bernoulliFlag
      · rfl
      · exfalso
        rcases hc with h | h
        · exact cat_not_bern h (hflag.mp hcase)
        · exact onehot_not_bern h (hflag.mp hcase)
    rw [REBARControlVariate.forward]
    simp [this, hf]

/-- Witness for C7 with a Bernoulli-tag control variate wrapping the identity
objective, perturbed to `log_temp = 0`, `eta = 2`. -/
theorem rebar_forward_spec_witness :
    ∃ r, REBARControlVariate.init (fun x => x) "bern" (1 / 10) 1 = .ok r ∧
      REBARControlVariate.forward { r with log_temp := 0, eta := 2 } [[1]]
        = ((([[1]] : Tensor).map (List.map (fun xv => xv / Real.exp 0))).map
            (List.map sigmoid)).map (List.map (fun y => 2 * y)) ∧
      (0 : ℝ) < Real.exp 0 := by
  have h0 : REBARControlVariate.init (fun x : Tensor => x) "bern" (1 / 10) 1
      = .ok ⟨(fun x => x), "bern", true, 1 / 10, 1, Real.log (1 / 10), 1⟩ := by
    rw [REBARControlVariate.init, if_neg (by norm_num : ¬((1 : ℝ) / 10 ≤ 0)),
      if_pos (by decide : "bern" ∈ BERNOULLI_SYNONYMS)]
    rfl
  obtain ⟨hb, -, hpos⟩ :=
    rebar_forward_spec (fun x => x) "bern" (1 / 10) 1 _ h0 0 2 [[1]]
  exact ⟨_, h0, hb (by decide), hpos⟩

/-! ### Branch equations for to_z and to_b (shared helpers) -/

theorem getD_mem_of_lt {α} (l : List α) (d : α) {i : ℕ} (h : i < l.length) :
    l.getD i d ∈ l := by
  rw [getD_eq_getElem_of_lt _ _ h]
  exact List.getElem_mem h

theorem to_z_bern_eq (logits : TT) (u : Tensor) {dist : String}
    (hb : dist ∈ BERNOULLI_SYNONYMS) :
    to_z logits u dist
      = .ok ⟨map2 (fun L uv => L + Real.log uv - log1p (-uv)) logits.data u, true⟩ := by
  rw [to_z, if_pos hb]

theorem to_z_catlike_eq (logits : TT) (u : Tensor) {dist : String}
    (hc : dist ∈ CATEGORICAL_SYNONYMS ∨ dist ∈ ONEHOT_SYNONYMS) :
    to_z logits u dist
      = .ok ⟨List.zipWith
          (fun lrow urow =>
            List.zipWith (fun lt uv => lt - Real.log (-Real.log uv))
              (logSoftmaxRow lrow) urow) logits.data u, true⟩ := by
  have hnb : dist ∉ BERNOULLI_SYNONYMS := by
    rcases hc with h | h
    · exact cat_not_bern h
    · exact onehot_not_bern h
  rw [to_z, if_neg hnb, if_pos hc]

theorem zCatData_shape {logits u : Tensor} (hsh : sameShape u logits) :
    sameShape (List.zipWith
      (fun lrow urow =>
        List.zipWith (fun lt uv => lt - Real.log (-Real.log uv))
          (logSoftmaxRow lrow) urow) logits u) logits := by
  refine zipWith_rows_shape _ ?_ logits u hsh
  intro x y hxy
  rw [List.length_zipWith, logSoftmaxRow, List.length_map, hxy, min_self]

theorem to_b_bern_eq (z : TT) {dist : String} (hb : dist ∈ BERNOULLI_SYNONYMS) :
    to_b z dist
      = .ok ⟨.full (z.data.map (List.map (fun x => if 0 < x then (1 : ℝ) else 0))),
          false⟩ := by
  rw [to_b, if_pos hb]

theorem to_b_cat_eq (z : TT) {dist : String} (hc : dist ∈ CATEGORICAL_SYNONYMS) :
    to_b z dist = .ok ⟨.idx (z.data.map argmaxRow), false⟩ := by
  rw [to_b, if_neg (cat_not_bern hc), if_pos hc]

theorem to_b_onehot_eq (z : TT) {dist : String} (ho : dist ∈ ONEHOT_SYNONYMS) :
    to_b z dist
      = .ok ⟨.full (z.data.map
          (fun row => scatterOneHot row.length (argmaxRow row))), false⟩ := by
  rw [to_b, if_neg (onehot_not_bern ho), if_neg (onehot_not_cat ho), if_pos ho]

theorem map_rows_shape (f : List ℝ → List ℝ)
    (hf : ∀ row, (f row).length = row.length) (a : Tensor) :
    sameShape (a.map f) a := by
  unfold sameShape
  rw [List.map_map]
  exact List.map_congr_left (fun row _ => hf row)

theorem scatterOneHot_length (n k : ℕ) : (scatterOneHot n k).length = n := by
  simp [scatterOneHot]

theorem scatterOneHot_getD (n k : ℕ) {j : ℕ} (hj : j < n) :
    (scatterOneHot n k).getD j 0 = if j = k then 1 else 0 := by
  unfold scatterOneHot
  rw [getD_map_of_lt _ _ 0 0 (by simpa using hj),
    getD_eq_getElem_of_lt _ _ (by simpa using hj), List.getElem_range]

/-! ### Claim C4: the noise-injection formulas and the grad mark of z -/

theorem log1p_neg_eq (x : ℝ) : log1p (-x) = Real.log (1 - x) := by
  rw [log1p]
  ring_nf

/-- C4: given a clamped uniform noise draw of `logits`' shape, `to_z` returns
`logits + log u − log (1 − u)` elementwise for the Bernoulli tag and
`log_softmax(logits, last dim) − log(−log u)` elementwise for the Categorical
and OneHotCategorical tags, and in each case the returned `z` is marked as
requiring gradient tracking. -/
theorem to_z_spec (logits : TT) (u : Tensor) (dist : String)
    (hsh : sameShape u logits.data) :
    (dist ∈ BERNOULLI_SYNONYMS → ∃ z : TT,
      to_z logits u dist = .ok z ∧ z.requiresGrad = true ∧
      sameShape z.data logits.data ∧
      ∀ i j, i < logits.data.length → j < (logits.data.getD i []).length →
        ent z.data i j
          = ent logits.data i j + Real.log (ent u i j)
            - Real.log (1 - ent u i j)) ∧
    ((dist ∈ CATEGORICAL_SYNONYMS ∨ dist ∈ ONEHOT_SYNONYMS) → ∃ z : TT,
      to_z logits u dist = .ok z ∧ z.requiresGrad = true ∧
      sameShape z.data logits.data ∧
      ∀ i j, i < logits.data.length → j < (logits.data.getD i []).length →
        ent z.data i j
          = ent logits.data i j - Real.log (expSum (logits.data.getD i []))
            - Real.log (-Real.log (ent u i j))) := by
  have hlen : u.length = logits.data.length := sameShape_length hsh
  constructor
  · intro hb
    refine ⟨_, by rw [to_z, if_pos hb], rfl, map2_shape _ hsh, ?_⟩
    intro i j hi hj
    have hju : j < (u.getD i []).length := by rw [sameShape_row hsh i]; exact hj
    rw [ent_map2 _ hi (by omega) hj hju, log1p_neg_eq]
  · intro hc
    have hnb : dist ∉ BERNOULLI_SYNONYMS := by
      rcases hc with h | h
      · exact cat_not_bern h
      · exact onehot_not_bern h
    refine ⟨_, by rw [to_z, if_neg hnb, if_pos hc], rfl, ?_, ?_⟩
    · refine zipWith_rows_shape _ ?_ logits.data u hsh
      intro x y hxy
      rw [List.length_zipWith, logSoftmaxRow, List.length_map, hxy, min_self]
    · intro i j hi hj
      have hju : j < (u.getD i []).length := by rw [sameShape_row hsh i]; exact hj
      unfold ent
      rw [getD_zipWith_of_lt _ logits.data u [] [] [] hi (by omega),
        getD_zipWith_of_lt _ _ _ 0 0 0 (by simpa [logSoftmaxRow] using hj) hju,
        logSoftmaxRow, getD_map_of_lt _ _ 0 0 hj]

/-- Witness for C4 at `logits = [[0]]`, `u = [[1/2]]`, under both a Bernoulli
and a Categorical tag. -/
theorem to_z_spec_witness :
    (∃ z : TT, to_z ⟨[[0]], true⟩ [[1 / 2]] "bern" = .ok z ∧
      z.requiresGrad = true ∧ sameShape z.data [[0]] ∧
      ∀ i j, i < ([[(0 : ℝ)]] : Tensor).length →
        j < (([[(0 : ℝ)]] : Tensor).getD i []).length →
        ent z.data i j
          = ent [[0]] i j + Real.log (ent [[1 / 2]] i j)
            - Real.log (1 - ent [[1 / 2]] i j)) ∧
    (∃ z : TT, to_z ⟨[[0]], true⟩ [[1 / 2]] "cat" = .ok z ∧
      z.requiresGrad = true ∧ sameShape z.data [[0]] ∧
      ∀ i j, i < ([[(0 : ℝ)]] : Tensor).length →
        j < (([[(0 : ℝ)]] : Tensor).getD i []).length →
        ent z.data i j
          = ent [[0]] i j - Real.log (expSum (([[(0 : ℝ)]] : Tensor).getD i []))
            - Real.log (-Real.log (ent [[1 / 2]] i j))) :=
  ⟨(to_z_spec ⟨[[0]], true⟩ [[1 / 2]] "bern" rfl).1 (by decide),
   (to_z_spec ⟨[[0]], true⟩ [[1 / 2]] "cat" rfl).2 (Or.inl (by decide))⟩

/-! ### Claim C9: the REINFORCE estimate carries no gradient tracking -/

/-- C9: whenever `reinforce` succeeds, the returned tensor does not require
gradient tracking — it is built from the detached `fb` and a log-probability
gradient taken without `create_graph`, so it cannot be backpropagated further. -/
theorem reinforce_no_grad (fb b : FTT) (logits : TT) (dist : String) (g : TT)
    (h : reinforce fb b logits dist = .ok g) : g.requiresGrad = false := by
  obtain ⟨fd, fg⟩ := fb
  obtain ⟨bd, bg⟩ := b
  rw [reinforce] at h
  split_ifs at h <;> cases fd <;> cases bd <;>
    first
      | (injection h with h; rw [← h])
      | injection h

/-- Witness for C9: a concrete successful Bernoulli call whose inputs all
claim to require grad, with a grad-free result. -/
theorem reinforce_no_grad_witness :
    reinforce ⟨.full [[1]], true⟩ ⟨.full [[1]], true⟩ ⟨[[0]], true⟩ "bern"
      = .ok ⟨map2 (· * ·) [[1]] (dlogBern [[0]] [[1]]), false⟩ ∧
    (⟨map2 (· * ·) [[1]] (dlogBern [[0]] [[1]]), false⟩ : TT).requiresGrad
      = false := by
  have h : reinforce ⟨.full [[1]], true⟩ ⟨.full [[1]], true⟩ ⟨[[0]], true⟩ "bern"
      = .ok ⟨map2 (· * ·) [[1]] (dlogBern [[0]] [[1]]), false⟩ := by
    rw [reinforce, if_pos (by decide : ("bern" : String) ∈ BERNOULLI_SYNONYMS)]
  exact ⟨h, reinforce_no_grad _ _ _ _ _ h⟩

/-! ### Claim C6: the injection-discretization composition lands in the support -/

/-- C6: for every supported tag, `to_b (to_z logits)` lies in the correct
discrete support: every element is `0` or `1` for Bernoulli; every element is
an index below the size of its row's last dimension for Categorical; every
last-dimension slice is a one-hot vector for OneHotCategorical. -/
theorem to_b_to_z_support (logits : TT) (u : Tensor) (dist : String)
    (hsh : sameShape u logits.data)
    (hrows : ∀ row ∈ logits.data, row ≠ []) :
    (dist ∈ BERNOULLI_SYNONYMS → ∃ (z : TT) (bt : Tensor),
      to_z logits u dist = .ok z ∧
      to_b z dist = .ok ⟨.full bt, false⟩ ∧
      ∀ row ∈ bt, ∀ x ∈ row, x = 0 ∨ x = 1) ∧
    (dist ∈ CATEGORICAL_SYNONYMS → ∃ (z : TT) (ks : List ℕ),
      to_z logits u dist = .ok z ∧
      to_b z dist = .ok ⟨.idx ks, false⟩ ∧
      ks.length = logits.data.length ∧
      ∀ i < ks.length, ks.getD i 0 < (logits.data.getD i []).length) ∧
    (dist ∈ ONEHOT_SYNONYMS → ∃ (z : TT) (bt : Tensor),
      to_z logits u dist = .ok z ∧
      to_b z dist = .ok ⟨.full bt, false⟩ ∧
      sameShape bt logits.data ∧
      ∀ i < bt.length, ∃ k < (bt.getD i []).length,
        (bt.getD i []).getD k 0 = 1 ∧
        ∀ j < (bt.getD i []).length, j ≠ k → (bt.getD i []).getD j 0 = 0) := by
  refine ⟨fun hb => ?_, fun hc => ?_, fun ho => ?_⟩
  · refine ⟨_, _, to_z_bern_eq logits u hb, to_b_bern_eq _ hb, ?_⟩
    intro row hrow x hx
    simp only [List.mem_map] at hrow
    obtain ⟨zrow, -, rfl⟩ := hrow
    simp only [List.mem_map] at hx
    obtain ⟨y, -, rfl⟩ := hx
    by_cases hy : (0 : ℝ) < y
    · right
      rw [if_pos hy]
    · left
      rw [if_neg hy]
  · have hzsh := zCatData_shape hsh
    refine ⟨_, _, to_z_catlike_eq logits u (Or.inl hc), to_b_cat_eq _ hc, ?_, ?_⟩
    · rw [List.length_map]
      exact sameShape_length hzsh
    · intro i hi
      simp only [List.length_map] at hi
      rw [getD_map_of_lt argmaxRow _ [] 0 hi, ← sameShape_row hzsh i]
      have hne : (List.zipWith
          (fun lrow urow =>
            List.zipWith (fun lt uv => lt - Real.log (-Real.log uv))
              (logSoftmaxRow lrow) urow) logits.data u).getD i [] ≠ [] := by
        have h1 : (logits.data.getD i []) ≠ [] :=
          hrows _ (getD_mem_of_lt _ _ (by rw [← sameShape_length hzsh]; exact hi))
        intro hemp
        apply h1
        have := sameShape_row hzsh i
        rw [hemp] at this
        exact List.eq_nil_of_length_eq_zero this.symm
      exact argmaxRow_lt_length hne
  · have hzsh := zCatData_shape hsh
    refine ⟨_, _, to_z_catlike_eq logits u (Or.inr ho), to_b_onehot_eq _ ho, ?_, ?_⟩
    · exact sameShape_trans
        (map_rows_shape _ (fun row => scatterOneHot_length row.length _) _) hzsh
    · intro i hi
      simp only [List.length_map] at hi
      set zrow := (List.zipWith
        (fun lrow urow =>
          List.zipWith (fun lt uv => lt - Real.log (-Real.log uv))
            (logSoftmaxRow lrow) urow) logits.data u).getD i [] with hzrow
      have hbt : (List.map (fun row => scatterOneHot row.length (argmaxRow row))
          (List.zipWith
            (fun lrow urow =>
              List.zipWith (fun lt uv => lt - Real.log (-Real.log uv))
                (logSoftmaxRow lrow) urow) logits.data u)).getD i []
          = scatterOneHot zrow.length (argmaxRow zrow) :=
        getD_map_of_lt _ _ [] [] hi
      have hne : zrow ≠ [] := by
        have h1 : (logits.data.getD i []) ≠ [] :=
          hrows _ (getD_mem_of_lt _ _ (by rw [← sameShape_length hzsh]; exact hi))
        intro hemp
        apply h1
        have := sameShape_row hzsh i
        rw [hzrow] at hemp
        rw [hemp] at this
        exact List.eq_nil_of_length_eq_zero this.symm
      have hk := argmaxRow_lt_length hne
      refine ⟨argmaxRow zrow, ?_, ?_, ?_⟩
      · rw [hbt, scatterOneHot_length]
        exact hk
      · rw [hbt, scatterOneHot_getD _ _ hk, if_pos rfl]
      · intro j hj hjk
        rw [hbt, scatterOneHot_length] at hj
        rw [hbt, scatterOneHot_getD _ _ hj, if_neg hjk]

/-- Witness for C6 at `logits = [[0]]`, `u = [[1/2]]`, for all three tags. -/
theorem to_b_to_z_support_witness :
    (∃ (z : TT) (bt : Tensor),
      to_z ⟨[[0]], true⟩ [[1 / 2]] "bern" = .ok z ∧
      to_b z "bern" = .ok ⟨.full bt, false⟩ ∧
      ∀ row ∈ bt, ∀ x ∈ row, x = 0 ∨ x = 1) ∧
    (∃ (z : TT) (ks : List ℕ),
      to_z ⟨[[0]], true⟩ [[1 / 2]] "cat" = .ok z ∧
      to_b z "cat" = .ok ⟨.idx ks, false⟩ ∧
      ks.length = ([[(0 : ℝ)]] : Tensor).length ∧
      ∀ i < ks.length, ks.getD i 0 < (([[(0 : ℝ)]] : Tensor).getD i []).length) ∧
    (∃ (z : TT) (bt : Tensor),
      to_z ⟨[[0]], true⟩ [[1 / 2]] "onehot" = .ok z ∧
      to_b z "onehot" = .ok ⟨.full bt, false⟩ ∧
      sameShape bt [[0]] ∧
      ∀ i < bt.length, ∃ k < (bt.getD i []).length,
        (bt.getD i []).getD k 0 = 1 ∧
        ∀ j < (bt.getD i []).length, j ≠ k → (bt.getD i []).getD j 0 = 0) := by
  have hb := (to_b_to_z_support ⟨[[0]], true⟩ [[1 / 2]] "bern" rfl
    (by simp)).1 (by decide)
  have hc := (to_b_to_z_support ⟨[[0]], true⟩ [[1 / 2]] "cat" rfl
    (by simp)).2.1 (by decide)
  have ho := (to_b_to_z_support ⟨[[0]], true⟩ [[1 / 2]] "onehot" rfl
    (by simp)).2.2 (by decide)
  exact ⟨hb, hc, ho⟩

/-! ### Claim C3: the REINFORCE formula and output shape -/

theorem zipWith_idx_shape {β} (g : List ℝ → β → List ℝ)
    (hg : ∀ x k, (g x k).length = x.length) :
    ∀ (a : Tensor) (ks : List β), ks.length = a.length →
      sameShape (List.zipWith g a ks) a
  | [], ks, _ => by simp [sameShape]
  | x :: xs, [], h => by simp at h
  | x :: xs, k :: ks, h => by
    simp only [List.zipWith_cons_cons, sameShape, List.map_cons, List.cons.injEq]
    exact ⟨hg x k, zipWith_idx_shape g hg xs ks (by simpa using h)⟩

theorem zipWith_scale_shape :
    ∀ (a : List ℝ) (b : Tensor), a.length = b.length →
      sameShape (List.zipWith (fun fv grow => grow.map (fun g => fv * g)) a b) b
  | [], b, h => by
    cases b
    · simp [sameShape]
    · simp at h
  | x :: xs, [], h => by simp at h
  | x :: xs, y :: ys, h => by
    simp only [List.zipWith_cons_cons, sameShape, List.map_cons, List.cons.injEq,
      List.length_map]
    exact ⟨trivial, zipWith_scale_shape xs ys (by simpa using h)⟩

theorem dlogCatRow_length (row : List ℝ) (k : ℕ) :
    (dlogCatRow row k).length = row.length := by
  rw [dlogCatRow, List.length_zipWith, scatterOneHot_length, softmaxRow,
    List.length_map, min_self]

theorem dlogCat_shape {logits : Tensor} {ks : List ℕ}
    (h : ks.length = logits.length) : sameShape (dlogCat logits ks) logits :=
  zipWith_idx_shape dlogCatRow dlogCatRow_length logits ks h

theorem dlogOneHot_shape {logits bt : Tensor} (h : sameShape bt logits) :
    sameShape (dlogOneHot logits bt) logits :=
  zipWith_rows_shape _ (fun x _ _ => dlogCatRow_length x _) logits bt h

/-- C3: `reinforce` treats `fb` and `b` as constants (the result is the same
for every grad flag on them and carries no grad itself), returns `fb` times
the closed-form log-probability gradient — `fb` unsqueezed on the last axis
for the Categorical and OneHotCategorical families — and the result has
exactly the shape of `logits` for all three tags. -/
theorem reinforce_spec (logits : TT) (dist : String) :
    (dist ∈ BERNOULLI_SYNONYMS → ∀ (fbt bt : Tensor) (gf gb : Bool),
      sameShape fbt logits.data → sameShape bt logits.data →
      reinforce ⟨.full fbt, gf⟩ ⟨.full bt, gb⟩ logits dist
        = .ok ⟨map2 (· * ·) fbt (dlogBern logits.data bt), false⟩ ∧
      sameShape (map2 (· * ·) fbt (dlogBern logits.data bt)) logits.data) ∧
    (dist ∈ CATEGORICAL_SYNONYMS → ∀ (fbs : List ℝ) (ks : List ℕ) (gf gb : Bool),
      fbs.length = logits.data.length → ks.length = logits.data.length →
      reinforce ⟨.red fbs, gf⟩ ⟨.idx ks, gb⟩ logits dist
        = .ok ⟨List.zipWith (fun fv grow => grow.map (fun g => fv * g)) fbs
            (dlogCat logits.data ks), false⟩ ∧
      sameShape (List.zipWith (fun fv grow => grow.map (fun g => fv * g)) fbs
        (dlogCat logits.data ks)) logits.data) ∧
    (dist ∈ ONEHOT_SYNONYMS → ∀ (fbs : List ℝ) (bt : Tensor) (gf gb : Bool),
      fbs.length = logits.data.length → sameShape bt logits.data →
      reinforce ⟨.red fbs, gf⟩ ⟨.full bt, gb⟩ logits dist
        = .ok ⟨List.zipWith (fun fv grow => grow.map (fun g => fv * g)) fbs
            (dlogOneHot logits.data bt), false⟩ ∧
      sameShape (List.zipWith (fun fv grow => grow.map (fun g => fv * g)) fbs
        (dlogOneHot logits.data bt)) logits.data) := by
  refine ⟨fun hb fbt bt gf gb hf hbt => ⟨?_, ?_⟩,
    fun hc fbs ks gf gb hf hk => ⟨?_, ?_⟩,
    fun ho fbs bt gf gb hf hbt => ⟨?_, ?_⟩⟩
  · rw [reinforce, if_pos hb]
  · have hd : sameShape (dlogBern logits.data bt) logits.data := map2_shape _ hbt
    exact sameShape_trans
      (map2_shape _ (sameShape_trans hd (sameShape_symm hf))) hf
  · rw [reinforce, if_neg (cat_not_bern hc), if_pos hc]
  · have hd : sameShape (dlogCat logits.data ks) logits.data := dlogCat_shape hk
    exact sameShape_trans
      (zipWith_scale_shape fbs _ (by rw [sameShape_length hd, hf])) hd
  · rw [reinforce, if_neg (onehot_not_bern ho), if_neg (onehot_not_cat ho),
      if_pos ho]
  · have hd : sameShape (dlogOneHot logits.data bt) logits.data :=
      dlogOneHot_shape hbt
    exact sameShape_trans
      (zipWith_scale_shape fbs _ (by rw [sameShape_length hd, hf])) hd

/-- Witness for C3 at `logits = [[0]]` for all three tags. -/
theorem reinforce_spec_witness :
    (reinforce ⟨.full [[2]], true⟩ ⟨.full [[1]], true⟩ ⟨[[0]], true⟩ "bern"
        = .ok ⟨map2 (· * ·) [[2]] (dlogBern [[0]] [[1]]), false⟩ ∧
      sameShape (map2 (· * ·) [[2]] (dlogBern [[0]] [[1]])) [[0]]) ∧
    (reinforce ⟨.red [2], true⟩ ⟨.idx [0], true⟩ ⟨[[0]], true⟩ "cat"
        = .ok ⟨List.zipWith (fun fv grow => grow.map (fun g => fv * g)) [2]
            (dlogCat [[0]] [0]), false⟩ ∧
      sameShape (List.zipWith (fun fv grow => grow.map (fun g => fv * g)) [2]
        (dlogCat [[0]] [0])) [[0]]) ∧
    (reinforce ⟨.red [2], true⟩ ⟨.full [[1]], true⟩ ⟨[[0]], true⟩ "onehot"
        = .ok ⟨List.zipWith (fun fv grow => grow.map (fun g => fv * g)) [2]
            (dlogOneHot [[0]] [[1]]), false⟩ ∧
      sameShape (List.zipWith (fun fv grow => grow.map (fun g => fv * g)) [2]
        (dlogOneHot [[0]] [[1]])) [[0]]) := by
  obtain ⟨hb, hc, ho⟩ := reinforce_spec ⟨[[0]], true⟩ "bern"
  obtain ⟨-, hc', -⟩ := reinforce_spec ⟨[[0]], true⟩ "cat"
  obtain ⟨-, -, ho'⟩ := reinforce_spec ⟨[[0]], true⟩ "onehot"
  exact ⟨hb (by decide) [[2]] [[1]] true true rfl rfl,
    hc' (by decide) [2] [0] true true rfl rfl,
    ho' (by decide) [2] [[1]] true true rfl rfl⟩

/-! ### Claim C1: conditional reparameterization discretizes back to b -/

theorem sigmoid_neg_mem (L : ℝ) : 0 < sigmoid (-L) ∧ sigmoid (-L) < 1 := by
  have hE := Real.exp_pos L
  have hden : (0 : ℝ) < 1 + Real.exp L := by linarith
  have hw : sigmoid (-L) = 1 / (1 + Real.exp L) := by simp [sigmoid]
  constructor
  · rw [hw]
    exact one_div_pos.mpr hden
  · rw [hw, div_lt_one hden]
    linarith

theorem logit_anchor (L : ℝ) :
    L + Real.log (sigmoid (-L)) - Real.log (1 - sigmoid (-L)) = 0 := by
  have hE := Real.exp_pos L
  have hden : (0 : ℝ) < 1 + Real.exp L := by linarith
  have hw : sigmoid (-L) = 1 / (1 + Real.exp L) := by simp [sigmoid]
  have h1 : Real.log (sigmoid (-L)) = -Real.log (1 + Real.exp L) := by
    rw [hw, one_div, Real.log_inv]
  have h2 : 1 - sigmoid (-L) = Real.exp L / (1 + Real.exp L) := by
    rw [hw]
    field_simp
  have h3 : Real.log (1 - sigmoid (-L)) = L - Real.log (1 + Real.exp L) := by
    rw [h2, Real.log_div (ne_of_gt hE) (ne_of_gt hden), Real.log_exp]
  rw [h1, h3]
  ring

theorem logit_strictMono {a b : ℝ} (ha : 0 < a) (hb : b < 1) (hab : a < b) :
    Real.log a - Real.log (1 - a) < Real.log b - Real.log (1 - b) := by
  have h1 : Real.log a < Real.log b := Real.log_lt_log ha hab
  have h2 : Real.log (1 - b) < Real.log (1 - a) :=
    Real.log_lt_log (by linarith) (by linarith)
  linarith

/-- The scalar heart of the Bernoulli conditional construction: the surrogate
entry is positive exactly when the observed entry is 1. -/
theorem zTildeBernEnt_pos_iff (L bv v : ℝ) (hv0 : 0 < v) (hv1 : v < 1)
    (hb : bv = 0 ∨ bv = 1) : 0 < zTildeBernEnt L bv v ↔ bv = 1 := by
  obtain ⟨hw0, hw1⟩ := sigmoid_neg_mem L
  rcases hb with rfl | rfl
  · have hvp : vPrime L 0 v = v * sigmoid (-L) := by
      rw [vPrime]
      ring
    constructor
    · intro hpos
      exfalso
      have hvpw : v * sigmoid (-L) < sigmoid (-L) := by nlinarith
      have hvp0 : 0 < v * sigmoid (-L) := mul_pos hv0 hw0
      have hmono := logit_strictMono hvp0 hw1 hvpw
      have hanchor := logit_anchor L
      rw [zTildeBernEnt, hvp, log1p_neg_eq] at hpos
      linarith
    · intro h
      norm_num at h
  · have hvp : vPrime L 1 v = v * (1 - sigmoid (-L)) + sigmoid (-L) := by
      rw [vPrime]
      ring
    refine ⟨fun _ => rfl, fun _ => ?_⟩
    have hgt : sigmoid (-L) < v * (1 - sigmoid (-L)) + sigmoid (-L) := by nlinarith
    have hlt1 : v * (1 - sigmoid (-L)) + sigmoid (-L) < 1 := by nlinarith
    have hmono := logit_strictMono hw0 hlt1 hgt
    have hanchor := logit_anchor L
    rw [zTildeBernEnt, hvp, log1p_neg_eq]
    linarith

theorem softmaxRow_length (row : List ℝ) : (softmaxRow row).length = row.length := by
  simp [softmaxRow]

theorem softmaxRow_getD_pos {row : List ℝ} (hne : row ≠ []) {j : ℕ}
    (hj : j < row.length) : 0 < (softmaxRow row).getD j 0 := by
  rw [softmaxRow, getD_map_of_lt _ _ 0 0 hj]
  have hsum : 0 < expSum row := by
    rw [expSum]
    apply List.sum_pos
    · intro x hx
      obtain ⟨y, -, rfl⟩ := List.mem_map.mp hx
      exact Real.exp_pos y
    · simpa using hne
  exact div_pos (Real.exp_pos _) hsum

theorem catGo_length (c : ℝ) (k : ℕ) : ∀ (d : ℕ) (vs ts : List ℝ),
    (catGo c k d vs ts).length = min vs.length ts.length
  | _, [], ts => by cases ts <;> simp [catGo]
  | _, v :: vs, [] => by simp [catGo]
  | d, v :: vs, t :: ts => by
    simp only [catGo, List.length_cons, catGo_length c k (d + 1) vs ts]
    omega

theorem catGo_getD (c : ℝ) (k : ℕ) : ∀ (d : ℕ) (vs ts : List ℝ) (j : ℕ),
    j < vs.length → j < ts.length →
    (catGo c k d vs ts).getD j 0
      = if d + j = k then -Real.log (-Real.log (vs.getD j 0))
        else -Real.log (-Real.log (vs.getD j 0) / ts.getD j 0 - c)
  | d, v :: vs, t :: ts, 0, _, _ => by simp [catGo]
  | d, v :: vs, t :: ts, j + 1, hj, ht => by
    have ih := catGo_getD c k (d + 1) vs ts j (by simpa using hj) (by simpa using ht)
    have harith : d + 1 + j = d + (j + 1) := by omega
    rw [harith] at ih
    simpa [catGo] using ih

theorem oneHotGo_length (c : ℝ) : ∀ (bs vs ts : List ℝ),
    (oneHotGo c bs vs ts).length = min bs.length (min vs.length ts.length)
  | [], vs, ts => by cases vs <;> cases ts <;> simp [oneHotGo]
  | b :: bs, [], ts => by cases ts <;> simp [oneHotGo]
  | b :: bs, v :: vs, [] => by simp [oneHotGo]
  | b :: bs, v :: vs, t :: ts => by
    simp only [oneHotGo, List.length_cons, oneHotGo_length c bs vs ts]
    omega

theorem oneHotGo_getD (c : ℝ) : ∀ (bs vs ts : List ℝ) (j : ℕ),
    j < bs.length → j < vs.length → j < ts.length →
    (oneHotGo c bs vs ts).getD j 0
      = if ⌊bs.getD j 0⌋ ≠ (0 : ℤ) then -Real.log (-Real.log (vs.getD j 0))
        else -Real.log (-Real.log (vs.getD j 0) / ts.getD j 0 - c)
  | b :: bs, v :: vs, t :: ts, 0, _, _, _ => by simp [oneHotGo]
  | b :: bs, v :: vs, t :: ts, j + 1, hb, hj, ht => by
    simpa [oneHotGo] using
      oneHotGo_getD c bs vs ts j (by simpa using hb) (by simpa using hj)
        (by simpa using ht)

/-- The categorical conditional row: strictly dominated everywhere except at
the observed index, so its arg-max is the observed index. -/
theorem zTildeCatRow_argmax (lrow vrow : List ℝ) (k : ℕ) (hk : k < lrow.length)
    (hlen : vrow.length = lrow.length) (hv : ∀ x ∈ vrow, 0 < x ∧ x < 1) :
    argmaxRow (zTildeCatRow lrow vrow k) = k := by
  have hne : lrow ≠ [] := by
    intro h
    rw [h] at hk
    simp at hk
  have hout : (zTildeCatRow lrow vrow k).length = lrow.length := by
    rw [zTildeCatRow, catGo_length, softmaxRow_length, hlen, min_self]
  have hkv : k < vrow.length := by rw [hlen]; exact hk
  have hks : k < (softmaxRow lrow).length := by rw [softmaxRow_length]; exact hk
  have hvk := hv _ (getD_mem_of_lt vrow 0 hkv)
  have hlogvk : 0 < -Real.log (vrow.getD k 0) := by
    have := Real.log_neg hvk.1 hvk.2
    linarith
  apply argmaxRow_eq_of_strict (by rw [hout]; exact hk)
  intro j hj hjk
  rw [hout] at hj
  have hjv : j < vrow.length := by rw [hlen]; exact hj
  have hjs : j < (softmaxRow lrow).length := by rw [softmaxRow_length]; exact hj
  rw [zTildeCatRow, catGo_getD _ _ _ _ _ j hjv hjs, catGo_getD _ _ _ _ _ k hkv hks]
  rw [if_neg (by omega : ¬(0 + j = k)), if_pos (by omega : 0 + k = k)]
  have hvj := hv _ (getD_mem_of_lt vrow 0 hjv)
  have hlvj : 0 < -Real.log (vrow.getD j 0) := by
    have := Real.log_neg hvj.1 hvj.2
    linarith
  have hθ : 0 < (softmaxRow lrow).getD j 0 := softmaxRow_getD_pos hne hj
  have hA : -Real.log (vrow.getD k 0)
      < -Real.log (vrow.getD j 0) / (softmaxRow lrow).getD j 0
        - Real.log (vrow.getD k 0) := by
    have := div_pos hlvj hθ
    linarith
  have := Real.log_lt_log hlogvk hA
  linarith

theorem argmax_of_oneHot {brow : List ℝ} {k : ℕ} (h : oneHotAt brow k) :
    argmaxRow brow = k := by
  apply argmaxRow_eq_of_strict h.1
  intro j hj hjk
  rw [h.2.2 j hj hjk, h.2.1]
  norm_num

/-- The one-hot conditional row: its arg-max is the position of the 1 in the
observed one-hot row. -/
theorem zTildeOneHotRow_argmax (lrow brow vrow : List ℝ) (k : ℕ)
    (hone : oneHotAt brow k) (hblen : brow.length = lrow.length)
    (hlen : vrow.length = lrow.length) (hv : ∀ x ∈ vrow, 0 < x ∧ x < 1) :
    argmaxRow (zTildeOneHotRow lrow brow vrow) = k := by
  have hk : k < lrow.length := by rw [← hblen]; exact hone.1
  have hne : lrow ≠ [] := by
    intro h
    rw [h] at hk
    simp at hk
  have hout : (zTildeOneHotRow lrow brow vrow).length = lrow.length := by
    rw [zTildeOneHotRow, oneHotGo_length, softmaxRow_length, hblen, hlen, min_self,
      min_self]
  have hkb : k < brow.length := hone.1
  have hkv : k < vrow.length := by rw [hlen]; exact hk
  have hks : k < (softmaxRow lrow).length := by rw [softmaxRow_length]; exact hk
  have hvk := hv _ (getD_mem_of_lt vrow 0 hkv)
  have hlogvk : 0 < -Real.log (vrow.getD k 0) := by
    have := Real.log_neg hvk.1 hvk.2
    linarith
  have hgather : argmaxRow brow = k := argmax_of_oneHot hone
  apply argmaxRow_eq_of_strict (by rw [hout]; exact hk)
  intro j hj hjk
  rw [hout] at hj
  have hjb : j < brow.length := by rw [hblen]; exact hj
  have hjv : j < vrow.length := by rw [hlen]; exact hj
  have hjs : j < (softmaxRow lrow).length := by rw [softmaxRow_length]; exact hj
  rw [zTildeOneHotRow, hgather, oneHotGo_getD _ _ _ _ j hjb hjv hjs,
    oneHotGo_getD _ _ _ _ k hkb hkv hks]
  rw [if_neg (by rw [hone.2.2 j hjb hjk]; norm_num), if_pos (by rw [hone.2.1]; norm_num)]
  have hvj := hv _ (getD_mem_of_lt vrow 0 hjv)
  have hlvj : 0 < -Real.log (vrow.getD j 0) := by
    have := Real.log_neg hvj.1 hvj.2
    linarith
  have hθ : 0 < (softmaxRow lrow).getD j 0 := softmaxRow_getD_pos hne hj
  have hA : -Real.log (vrow.getD k 0)
      < -Real.log (vrow.getD j 0) / (softmaxRow lrow).getD j 0
        - Real.log (vrow.getD k 0) := by
    have := div_pos hlvj hθ
    linarith
  have := Real.log_lt_log hlogvk hA
  linarith

theorem to_z_tilde_bern_eq {dist : String} (hb : dist ∈ BERNOULLI_SYNONYMS)
    (logits bt v : Tensor) :
    _to_z_tilde logits (.full bt) v dist
      = .ok (zipWith3 (zipWith3 zTildeBernEnt) logits bt v) := by
  rw [_to_z_tilde, if_pos hb]

theorem to_z_tilde_cat_eq {dist : String} (hc : dist ∈ CATEGORICAL_SYNONYMS)
    (logits : Tensor) (ks : List ℕ) (v : Tensor) :
    _to_z_tilde logits (.idx ks) v dist
      = .ok (zipWith3 (fun lrow k vrow => zTildeCatRow lrow vrow k) logits ks v) := by
  rw [_to_z_tilde, if_neg (cat_not_bern hc), if_pos hc]

theorem to_z_tilde_onehot_eq {dist : String} (ho : dist ∈ ONEHOT_SYNONYMS)
    (logits bt v : Tensor) :
    _to_z_tilde logits (.full bt) v dist
      = .ok (zipWith3 zTildeOneHotRow logits bt v) := by
  rw [_to_z_tilde, if_neg (onehot_not_bern ho), if_neg (onehot_not_cat ho), if_pos ho]

theorem clamped_ent {v : Tensor} (hv : clamped v) {i j : ℕ} (hi : i < v.length)
    (hj : j < (v.getD i []).length) : 0 < ent v i j ∧ ent v i j < 1 :=
  hv _ (getD_mem_of_lt _ _ hi) _ (getD_mem_of_lt _ _ hj)

/-- C1: for every supported family, the conditional surrogate produced by
`_to_z_tilde` discretizes back to exactly the observed sample: elementwise
`z̃ > 0 ↔ b = 1` for Bernoulli, rowwise `argmax z̃ = b` for Categorical, and
rowwise `argmax z̃ = (position of the 1 in b)` for OneHotCategorical. -/
theorem z_tilde_discretizes_to_b (logits v : Tensor) (hv : clamped v)
    (hsh : sameShape v logits) :
    (∀ dist ∈ BERNOULLI_SYNONYMS, ∀ bt : Tensor, sameShape bt logits →
      (∀ row ∈ bt, ∀ x ∈ row, x = 0 ∨ x = 1) →
      ∃ zt, _to_z_tilde logits (.full bt) v dist = .ok zt ∧
        ∀ i j, i < logits.length → j < (logits.getD i []).length →
          (0 < ent zt i j ↔ ent bt i j = 1)) ∧
    (∀ dist ∈ CATEGORICAL_SYNONYMS, ∀ ks : List ℕ, ks.length = logits.length →
      (∀ i < logits.length, ks.getD i 0 < (logits.getD i []).length) →
      ∃ zt, _to_z_tilde logits (.idx ks) v dist = .ok zt ∧
        ∀ i < logits.length, argmaxRow (zt.getD i []) = ks.getD i 0) ∧
    (∀ dist ∈ ONEHOT_SYNONYMS, ∀ bt : Tensor, sameShape bt logits →
      ∃ zt, _to_z_tilde logits (.full bt) v dist = .ok zt ∧
        ∀ i k, i < logits.length → oneHotAt (bt.getD i []) k →
          argmaxRow (zt.getD i []) = k) := by
  have hvlen : v.length = logits.length := sameShape_length hsh
  refine ⟨fun dist hb bt hbsh hb01 => ?_, fun dist hc ks hklen hkbound => ?_,
    fun dist ho bt hbsh => ?_⟩
  · refine ⟨_, to_z_tilde_bern_eq hb logits bt v, ?_⟩
    intro i j hi hj
    have hib : i < bt.length := by rw [sameShape_length hbsh]; exact hi
    have hiv : i < v.length := by rw [hvlen]; exact hi
    have hjb : j < (bt.getD i []).length := by rw [sameShape_row hbsh i]; exact hj
    have hjv : j < (v.getD i []).length := by rw [sameShape_row hsh i]; exact hj
    have hentv : ent (zipWith3 (zipWith3 zTildeBernEnt) logits bt v) i j
        = zTildeBernEnt (ent logits i j) (ent bt i j) (ent v i j) := by
      unfold ent
      rw [getD_zipWith3 _ [] [] [] [] logits bt v i hi hib hiv,
        getD_zipWith3 _ 0 0 0 0 _ _ _ j hj hjb hjv]
    rw [hentv]
    have hvb := clamped_ent hv hiv hjv
    have hbval : ent bt i j = 0 ∨ ent bt i j = 1 :=
      hb01 _ (getD_mem_of_lt _ _ hib) _ (getD_mem_of_lt _ _ hjb)
    exact zTildeBernEnt_pos_iff _ _ _ hvb.1 hvb.2 hbval
  · refine ⟨_, to_z_tilde_cat_eq hc logits ks v, ?_⟩
    intro i hi
    have hik : i < ks.length := by rw [hklen]; exact hi
    have hiv : i < v.length := by rw [hvlen]; exact hi
    rw [getD_zipWith3 _ [] 0 [] [] logits ks v i hi hik hiv]
    apply zTildeCatRow_argmax
    · exact hkbound i hi
    · exact sameShape_row hsh i
    · intro x hx
      exact hv _ (getD_mem_of_lt _ _ hiv) x hx
  · refine ⟨_, to_z_tilde_onehot_eq ho logits bt v, ?_⟩
    intro i k hi hone
    have hib : i < bt.length := by rw [sameShape_length hbsh]; exact hi
    have hiv : i < v.length := by rw [hvlen]; exact hi
    rw [getD_zipWith3 zTildeOneHotRow [] [] [] [] logits bt v i hi hib hiv]
    exact zTildeOneHotRow_argmax _ _ _ _ hone (sameShape_row hbsh i)
      (sameShape_row hsh i) (fun x hx => hv _ (getD_mem_of_lt _ _ hiv) x hx)

/-- Witness for C1 at `logits = [[0]]`, `v = [[1/2]]`, with observed samples
`b = [[1]]` (Bernoulli), `b = [0]` (Categorical index), `b = [[1]]` (one-hot). -/
theorem z_tilde_discretizes_to_b_witness :
    (∃ zt, _to_z_tilde [[0]] (.full [[1]]) [[1 / 2]] "bern" = .ok zt ∧
      ∀ i j, i < ([[(0 : ℝ)]] : Tensor).length →
        j < (([[(0 : ℝ)]] : Tensor).getD i []).length →
        (0 < ent zt i j ↔ ent [[1]] i j = 1)) ∧
    (∃ zt, _to_z_tilde [[0]] (.idx [0]) [[1 / 2]] "cat" = .ok zt ∧
      ∀ i < ([[(0 : ℝ)]] : Tensor).length,
        argmaxRow (zt.getD i []) = [0].getD i 0) ∧
    (∃ zt, _to_z_tilde [[0]] (.full [[1]]) [[1 / 2]] "onehot" = .ok zt ∧
      ∀ i k, i < ([[(0 : ℝ)]] : Tensor).length →
        oneHotAt (([[(1 : ℝ)]] : Tensor).getD i []) k →
        argmaxRow (zt.getD i []) = k) := by
  have hv : clamped [[1 / 2]] := by
    intro row hrow x hx
    simp only [List.mem_cons, List.not_mem_nil, or_false] at hrow
    subst hrow
    simp only [List.mem_cons, List.not_mem_nil, or_false] at hx
    subst hx
    norm_num
  obtain ⟨hb, hc, ho⟩ := z_tilde_discretizes_to_b [[0]] [[1 / 2]] hv rfl
  refine ⟨hb "bern" (by decide) [[1]] rfl ?_, hc "cat" (by decide) [0] rfl ?_,
    ho "onehot" (by decide) [[1]] rfl⟩
  · intro row hrow x hx
    simp only [List.mem_cons, List.not_mem_nil, or_false] at hrow
    subst hrow
    simp only [List.mem_cons, List.not_mem_nil, or_false] at hx
    subst hx
    norm_num
  · intro i hi
    simp only [List.length_cons, List.length_nil] at hi
    have : i = 0 := by omega
    subst this
    simp

/-! ### Claim C2: relax components reconstruct the single-tensor estimate -/

theorem bmulRow_length {a b : List ℝ} (h : a.length = 1 ∨ a.length = b.length) :
    (bmulRow a b).length = b.length := by
  unfold bmulRow
  split_ifs with h1 h2
  · simp
  · rcases h with h | h
    · exact absurd h h1
    · simp [h]
  · rcases h with h | h
    · exact absurd h h1
    · rw [List.length_zipWith, h, min_self]

theorem bmulT_shape_same {a b : Tensor} (h : sameShape b a) :
    sameShape (bmulT a b) a :=
  zipWith_rows_shape bmulRow
    (fun x y hxy => by rw [bmulRow_length (Or.inr hxy.symm), hxy]) a b h

theorem bmulT_singleton_shape :
    ∀ (ds : List ℝ) (b : Tensor), ds.length = b.length →
      sameShape (bmulT (ds.map (fun x => [x])) b) b
  | [], [], _ => by simp [sameShape, bmulT]
  | [], y :: ys, h => by simp at h
  | x :: xs, [], h => by simp at h
  | x :: xs, y :: ys, h => by
    simp only [List.map_cons, bmulT, List.zipWith_cons_cons, sameShape,
      List.cons.injEq]
    exact ⟨bmulRow_length (Or.inl rfl),
      bmulT_singleton_shape xs ys (by simpa using h)⟩

theorem zipWith3_rows_shape (g : List ℝ → List ℝ → List ℝ → List ℝ)
    (hg : ∀ x y z, y.length = x.length → z.length = x.length →
      (g x y z).length = x.length) :
    ∀ a b c : Tensor, sameShape b a → sameShape c a →
      sameShape (zipWith3 g a b c) a
  | [], b, c, _, _ => by
    cases b <;> cases c <;> simp [sameShape, zipWith3]
  | x :: xs, [], c, hb, _ => by simp [sameShape] at hb
  | x :: xs, y :: ys, [], _, hc => by simp [sameShape] at hc
  | x :: xs, y :: ys, z :: zs, hb, hc => by
    simp only [sameShape, List.map_cons, List.cons.injEq] at hb hc
    simp only [zipWith3, sameShape, List.map_cons, List.cons.injEq]
    exact ⟨hg x y z hb.1 hc.1, zipWith3_rows_shape g hg xs ys zs hb.2 hc.2⟩

theorem zipWith3_idx_shape (g : List ℝ → ℕ → List ℝ → List ℝ)
    (hg : ∀ x k z, z.length = x.length → (g x k z).length = x.length) :
    ∀ (a : Tensor) (ks : List ℕ) (c : Tensor), ks.length = a.length →
      sameShape c a → sameShape (zipWith3 g a ks c) a
  | [], ks, c, _, _ => by
    cases ks <;> cases c <;> simp [sameShape, zipWith3]
  | x :: xs, [], c, hk, _ => by simp at hk
  | x :: xs, k :: ks, [], _, hc => by simp [sameShape] at hc
  | x :: xs, k :: ks, z :: zs, hk, hc => by
    simp only [sameShape, List.map_cons, List.cons.injEq] at hc
    simp only [zipWith3, sameShape, List.map_cons, List.cons.injEq]
    exact ⟨hg x k z hc.1,
      zipWith3_idx_shape g hg xs ks zs (by simpa using hk) hc.2⟩

theorem zTildeCatRow_length {lrow vrow : List ℝ} (h : vrow.length = lrow.length)
    (k : ℕ) : (zTildeCatRow lrow vrow k).length = lrow.length := by
  rw [zTildeCatRow, catGo_length, softmaxRow_length, h, min_self]

theorem zTildeOneHotRow_length {lrow brow vrow : List ℝ}
    (hb : brow.length = lrow.length) (hv : vrow.length = lrow.length) :
    (zTildeOneHotRow lrow brow vrow).length = lrow.length := by
  rw [zTildeOneHotRow, oneHotGo_length, softmaxRow_length, hb, hv, min_self,
    min_self]

theorem zTildeBern_shape {logits bt v : Tensor} (hbt : sameShape bt logits)
    (hv : sameShape v logits) :
    sameShape (zipWith3 (zipWith3 zTildeBernEnt) logits bt v) logits :=
  zipWith3_rows_shape _
    (fun x y z hy hz => by rw [zipWith3_length, hy, hz, min_self, min_self])
    logits bt v hbt hv

theorem zTildeCat_shape {logits v : Tensor} {ks : List ℕ}
    (hk : ks.length = logits.length) (hv : sameShape v logits) :
    sameShape (zipWith3 (fun lrow k vrow => zTildeCatRow lrow vrow k) logits ks v)
      logits :=
  zipWith3_idx_shape _ (fun _ k _ hz => zTildeCatRow_length hz k) logits ks v hk hv

theorem zTildeOneHot_shape {logits bt v : Tensor} (hbt : sameShape bt logits)
    (hv : sameShape v logits) :
    sameShape (zipWith3 zTildeOneHotRow logits bt v) logits :=
  zipWith3_rows_shape _ (fun _ _ _ hy hz => zTildeOneHotRow_length hy hz)
    logits bt v hbt hv

theorem combineG_shape {diffT dlog dcz dczt logits : Tensor}
    (hb : sameShape (bmulT diffT dlog) logits)
    (hz : sameShape dcz logits) (hzt : sameShape dczt logits) :
    sameShape (combineG diffT dlog dcz dczt) logits := by
  unfold combineG
  have h1 : sameShape (map2 (· + ·) (bmulT diffT dlog) dcz) logits :=
    sameShape_trans (map2_shape _ (sameShape_trans hz (sameShape_symm hb))) hb
  exact sameShape_trans (map2_shape _ (sameShape_trans hzt (sameShape_symm h1))) h1

theorem relax_bern_eval {dist : String} (hb : dist ∈ BERNOULLI_SYNONYMS)
    (fbt bt logits z v : Tensor) (capp : Tensor → FT) (agrad : FT → Tensor)
    {ct : Tensor}
    (hct : capp (zipWith3 (zipWith3 zTildeBernEnt) logits bt v) = .full ct)
    (components : Bool) :
    relax (.full fbt) (.full bt) logits z v capp agrad dist components
      = .ok (if components
          then .comps (map2 (· - ·) fbt ct) (dlogBern logits bt)
            (agrad (capp z)) (agrad (.full ct))
          else .single (combineG (map2 (· - ·) fbt ct) (dlogBern logits bt)
            (agrad (capp z)) (agrad (.full ct)))) := by
  rw [relax, to_z_tilde_bern_eq hb logits bt v]
  cases components <;>
    simp [hct, ftSub, hb, Except.instMonad, Except.bind, Except.pure]

theorem relax_cat_eval {dist : String} (hc : dist ∈ CATEGORICAL_SYNONYMS)
    (fbs : List ℝ) (ks : List ℕ) (logits z v : Tensor) (capp : Tensor → FT)
    (agrad : FT → Tensor) {ys : List ℝ}
    (hct : capp (zipWith3 (fun lrow k vrow => zTildeCatRow lrow vrow k)
      logits ks v) = .red ys)
    (components : Bool) :
    relax (.red fbs) (.idx ks) logits z v capp agrad dist components
      = .ok (if components
          then .comps ((List.zipWith (· - ·) fbs ys).map (fun x => [x]))
            (dlogCat logits ks) (agrad (capp z)) (agrad (.red ys))
          else .single (combineG ((List.zipWith (· - ·) fbs ys).map (fun x => [x]))
            (dlogCat logits ks) (agrad (capp z)) (agrad (.red ys)))) := by
  rw [relax, to_z_tilde_cat_eq hc logits ks v]
  cases components <;>
    simp [hct, ftSub, cat_not_bern hc, hc, Except.instMonad, Except.bind, Except.pure]

theorem relax_onehot_eval {dist : String} (ho : dist ∈ ONEHOT_SYNONYMS)
    (fbs : List ℝ) (bt logits z v : Tensor) (capp : Tensor → FT)
    (agrad : FT → Tensor) {ys : List ℝ}
    (hct : capp (zipWith3 zTildeOneHotRow logits bt v) = .red ys)
    (components : Bool) :
    relax (.red fbs) (.full bt) logits z v capp agrad dist components
      = .ok (if components
          then .comps ((List.zipWith (· - ·) fbs ys).map (fun x => [x]))
            (dlogOneHot logits bt) (agrad (capp z)) (agrad (.red ys))
          else .single (combineG ((List.zipWith (· - ·) fbs ys).map (fun x => [x]))
            (dlogOneHot logits bt) (agrad (capp z)) (agrad (.red ys)))) := by
  rw [relax, to_z_tilde_onehot_eq ho logits bt v]
  cases components <;>
    simp [hct, ftSub, onehot_not_bern ho, onehot_not_cat ho, ho,
      Except.instMonad, Except.bind, Except.pure]

/-- C2: for the same inputs and the same internal noise draw, `relax` with
`components = true` returns `(diff, dlog_pb, dc_z, dc_z_tilde)` such that
`diff * dlog_pb + dc_z - dc_z_tilde` (with torch broadcasting of the
unsqueezed `diff`) is exactly the tensor returned with `components = false`,
and that tensor has the shape of `logits` — for every supported tag. -/
theorem relax_components_reconstruct (logits z v : Tensor) (dist : String) :
    (dist ∈ BERNOULLI_SYNONYMS → ∀ (fbt bt : Tensor) (capp : Tensor → FT)
      (agrad : FT → Tensor),
      sameShape fbt logits → sameShape bt logits → sameShape v logits →
      (∀ x, sameShape x logits → ∃ y, capp x = .full y ∧ sameShape y logits) →
      (∀ t, sameShape (agrad t) logits) →
      ∃ dt dl dcz dczt,
        relax (.full fbt) (.full bt) logits z v capp agrad dist true
          = .ok (.comps dt dl dcz dczt) ∧
        relax (.full fbt) (.full bt) logits z v capp agrad dist false
          = .ok (.single (map2 (· - ·) (map2 (· + ·) (bmulT dt dl) dcz) dczt)) ∧
        sameShape (map2 (· - ·) (map2 (· + ·) (bmulT dt dl) dcz) dczt) logits) ∧
    (dist ∈ CATEGORICAL_SYNONYMS → ∀ (fbs : List ℝ) (ks : List ℕ)
      (capp : Tensor → FT) (agrad : FT → Tensor),
      fbs.length = logits.length → ks.length = logits.length →
      sameShape v logits →
      (∀ x, sameShape x logits → ∃ ys, capp x = .red ys ∧
        ys.length = logits.length) →
      (∀ t, sameShape (agrad t) logits) →
      ∃ dt dl dcz dczt,
        relax (.red fbs) (.idx ks) logits z v capp agrad dist true
          = .ok (.comps dt dl dcz dczt) ∧
        relax (.red fbs) (.idx ks) logits z v capp agrad dist false
          = .ok (.single (map2 (· - ·) (map2 (· + ·) (bmulT dt dl) dcz) dczt)) ∧
        sameShape (map2 (· - ·) (map2 (· + ·) (bmulT dt dl) dcz) dczt) logits) ∧
    (dist ∈ ONEHOT_SYNONYMS → ∀ (fbs : List ℝ) (bt : Tensor)
      (capp : Tensor → FT) (agrad : FT → Tensor),
      fbs.length = logits.length → sameShape bt logits → sameShape v logits →
      (∀ x, sameShape x logits → ∃ ys, capp x = .red ys ∧
        ys.length = logits.length) →
      (∀ t, sameShape (agrad t) logits) →
      ∃ dt dl dcz dczt,
        relax (.red fbs) (.full bt) logits z v capp agrad dist true
          = .ok (.comps dt dl dcz dczt) ∧
        relax (.red fbs) (.full bt) logits z v capp agrad dist false
          = .ok (.single (map2 (· - ·) (map2 (· + ·) (bmulT dt dl) dcz) dczt)) ∧
        sameShape (map2 (· - ·) (map2 (· + ·) (bmulT dt dl) dcz) dczt) logits) := by
  refine ⟨fun hb fbt bt capp agrad hfb hbt hv hcapp hgrad => ?_,
    fun hc fbs ks capp agrad hfbs hks hv hcapp hgrad => ?_,
    fun ho fbs bt capp agrad hfbs hbt hv hcapp hgrad => ?_⟩
  · obtain ⟨ct, hct, hctsh⟩ := hcapp _ (zTildeBern_shape hbt hv)
    refine ⟨map2 (· - ·) fbt ct, dlogBern logits bt, agrad (capp z),
      agrad (.full ct), ?_, ?_, ?_⟩
    · rw [relax_bern_eval hb fbt bt logits z v capp agrad hct true]
      rfl
    · rw [relax_bern_eval hb fbt bt logits z v capp agrad hct false]
      rfl
    · have hdl : sameShape (dlogBern logits bt) logits := map2_shape _ hbt
      have hdt : sameShape (map2 (· - ·) fbt ct) logits :=
        sameShape_trans
          (map2_shape _ (sameShape_trans hctsh (sameShape_symm hfb))) hfb
      have hbm : sameShape (bmulT (map2 (· - ·) fbt ct) (dlogBern logits bt))
          logits :=
        sameShape_trans
          (bmulT_shape_same (sameShape_trans hdl (sameShape_symm hdt))) hdt
      exact combineG_shape hbm (hgrad _) (hgrad _)
  · obtain ⟨ys, hct, hyslen⟩ := hcapp _ (zTildeCat_shape hks hv)
    refine ⟨(List.zipWith (· - ·) fbs ys).map (fun x => [x]), dlogCat logits ks,
      agrad (capp z), agrad (.red ys), ?_, ?_, ?_⟩
    · rw [relax_cat_eval hc fbs ks logits z v capp agrad hct true]
      rfl
    · rw [relax_cat_eval hc fbs ks logits z v capp agrad hct false]
      rfl
    · have hdl : sameShape (dlogCat logits ks) logits := dlogCat_shape hks
      have hds : (List.zipWith (· - ·) fbs ys).length = logits.length := by
        rw [List.length_zipWith, hfbs, hyslen, min_self]
      have hbm : sameShape
          (bmulT ((List.zipWith (· - ·) fbs ys).map (fun x => [x]))
            (dlogCat logits ks)) logits :=
        sameShape_trans
          (bmulT_singleton_shape _ _ (by rw [hds, sameShape_length hdl])) hdl
      exact combineG_shape hbm (hgrad _) (hgrad _)
  · obtain ⟨ys, hct, hyslen⟩ := hcapp _ (zTildeOneHot_shape hbt hv)
    refine ⟨(List.zipWith (· - ·) fbs ys).map (fun x => [x]),
      dlogOneHot logits bt, agrad (capp z), agrad (.red ys), ?_, ?_, ?_⟩
    · rw [relax_onehot_eval ho fbs bt logits z v capp agrad hct true]
      rfl
    · rw [relax_onehot_eval ho fbs bt logits z v capp agrad hct false]
      rfl
    · have hdl : sameShape (dlogOneHot logits bt) logits := dlogOneHot_shape hbt
      have hds : (List.zipWith (· - ·) fbs ys).length = logits.length := by
        rw [List.length_zipWith, hfbs, hyslen, min_self]
      have hbm : sameShape
          (bmulT ((List.zipWith (· - ·) fbs ys).map (fun x => [x]))
            (dlogOneHot logits bt)) logits :=
        sameShape_trans
          (bmulT_singleton_shape _ _ (by rw [hds, sameShape_length hdl])) hdl
      exact combineG_shape hbm (hgrad _) (hgrad _)

/-- Witness for C2 at `logits = z = [[0]]`, `v = [[1/2]]`, with an identity
control variate for the Bernoulli tag and a row-collapsing one for the
categorical tags, and a constant gradient oracle. -/
theorem relax_components_reconstruct_witness :
    (∃ dt dl dcz dczt,
      relax (.full [[1]]) (.full [[1]]) [[0]] [[0]] [[1 / 2]] (fun x => .full x)
          (fun _ => [[0]]) "bern" true = .ok (.comps dt dl dcz dczt) ∧
      relax (.full [[1]]) (.full [[1]]) [[0]] [[0]] [[1 / 2]] (fun x => .full x)
          (fun _ => [[0]]) "bern" false
        = .ok (.single (map2 (· - ·) (map2 (· + ·) (bmulT dt dl) dcz) dczt)) ∧
      sameShape (map2 (· - ·) (map2 (· + ·) (bmulT dt dl) dcz) dczt) [[0]]) ∧
    (∃ dt dl dcz dczt,
      relax (.red [2]) (.idx [0]) [[0]] [[0]] [[1 / 2]]
          (fun x => .red (x.map (fun _ => 0))) (fun _ => [[0]]) "cat" true
        = .ok (.comps dt dl dcz dczt) ∧
      relax (.red [2]) (.idx [0]) [[0]] [[0]] [[1 / 2]]
          (fun x => .red (x.map (fun _ => 0))) (fun _ => [[0]]) "cat" false
        = .ok (.single (map2 (· - ·) (map2 (· + ·) (bmulT dt dl) dcz) dczt)) ∧
      sameShape (map2 (· - ·) (map2 (· + ·) (bmulT dt dl) dcz) dczt) [[0]]) ∧
    (∃ dt dl dcz dczt,
      relax (.red [2]) (.full [[1]]) [[0]] [[0]] [[1 / 2]]
          (fun x => .red (x.map (fun _ => 0))) (fun _ => [[0]]) "onehot" true
        = .ok (.comps dt dl dcz dczt) ∧
      relax (.red [2]) (.full [[1]]) [[0]] [[0]] [[1 / 2]]
          (fun x => .red (x.map (fun _ => 0))) (fun _ => [[0]]) "onehot" false
        = .ok (.single (map2 (· - ·) (map2 (· + ·) (bmulT dt dl) dcz) dczt)) ∧
      sameShape (map2 (· - ·) (map2 (· + ·) (bmulT dt dl) dcz) dczt) [[0]]) := by
  refine ⟨(relax_components_reconstruct [[0]] [[0]] [[1 / 2]] "bern").1
      (by decide) [[1]] [[1]] _ _ rfl rfl rfl (fun x hx => ⟨x, rfl, hx⟩)
      (fun _ => rfl),
    (relax_components_reconstruct [[0]] [[0]] [[1 / 2]] "cat").2.1
      (by decide) [2] [0] _ _ rfl rfl rfl
      (fun x hx => ⟨x.map (fun _ => 0), rfl, ?_⟩) (fun _ => rfl),
    (relax_components_reconstruct [[0]] [[0]] [[1 / 2]] "onehot").2.2
      (by decide) [2] [[1]] _ _ rfl rfl rfl
      (fun x hx => ⟨x.map (fun _ => 0), rfl, ?_⟩) (fun _ => rfl)⟩
  · rw [List.length_map, sameShape_length hx]
  · rw [List.length_map, sameShape_length hx]

end Estimators
